import Mathlib

/-!
Verification of the parallel test runner (microsoft/playwright-test-runner).

The development shallowly embeds the code of `src/util.ts` (the deadline
runner, error serialization, the monotonic clock and the file matcher) and
the scheduler contract of the specification, and proves the frozen claims
about them.

Conventions of the embedding:
  - JavaScript promises are modelled by `PromiseCell`, a cell that settles
    at most once: `fulfill` and `reject` on a settled cell are no-ops,
    exactly the semantics of the resolve/reject callbacks of a `Promise`.
  - `setTimeout`/`clearTimeout` are modelled by an optional armed timer
    holding the absolute monotonic time at which the callback fires
    (the code arms the timer for `deadline - monotonicTime()` milliseconds
    at the current time, which is the same instant).
  - The single-threaded event loop is modelled by a trace of events
    (inner promise settlement, timer callback, `setDeadline` call) applied
    in order by a step function.
  - Machine numbers are `Nat`: all quantities involved (monotonic
    milliseconds, `process.hrtime` seconds/nanoseconds) are nonnegative
    integers in the source.
-/

namespace Folio

/-! ### Deadline runner (src/util.ts lines 27-75) -/

/-- The shape `{ result?: T, timedOut?: boolean }` with which the
`DeadlineRunner` result promise fulfills: `_finish({ result })` produces
`{ result := some v, timedOut := none }`, the timeout path produces
`{ result := none, timedOut := some true }`. -/
structure RaceResult (T : Type) where
  result : Option T := none
  timedOut : Option Bool := none
deriving DecidableEq, Repr

/-- A JavaScript promise cell: pending until fulfilled or rejected, and the
first settlement wins — fulfilling or rejecting a settled promise is a
no-op. A rejection value may be `undefined`, hence `Option E`. -/
inductive PromiseCell (R E : Type) where
  | pending
  | fulfilled (v : R)
  | rejected (e : Option E)
deriving DecidableEq, Repr

def PromiseCell.fulfill {R E : Type} : PromiseCell R E → R → PromiseCell R E
  | .pending, v => .fulfilled v
  | s, _ => s

def PromiseCell.reject {R E : Type} : PromiseCell R E → Option E → PromiseCell R E
  | .pending, e => .rejected e
  | s, _ => s

/-- State of a `DeadlineRunner<T>` (src/util.ts lines 27-71): the armed
timer (`_timer`, stored as the absolute monotonic time at which it fires)
and the result promise.  The `_done` flag of the source is initialized
`false` and never written, so it is omitted: the once-only behaviour of
the result comes from promise semantics. -/
structure DeadlineRunner (T E : Type) where
  timer : Option Nat
  result : PromiseCell (RaceResult T) E
deriving DecidableEq, Repr

/-- `_finish(success?, error?)` (src/util.ts lines 48-56): clears the
timer via `setDeadline(undefined)`, then fulfills with `success` when
present, otherwise rejects with `error`. -/
def DeadlineRunner.finish {T E : Type} (s : DeadlineRunner T E)
    (success : Option (RaceResult T)) (error : Option E) : DeadlineRunner T E :=
  match success with
  | some r => { timer := none, result := s.result.fulfill r }
  | none => { timer := none, result := s.result.reject error }

/-- `setDeadline(deadline)` (src/util.ts lines 58-70): always clears a
previously armed timer; `undefined` disables the timeout; a deadline at
or before `monotonicTime()` finishes with `{ timedOut: true }`
immediately; a future deadline arms the timer to fire at that time. -/
def DeadlineRunner.setDeadline {T E : Type} (s : DeadlineRunner T E)
    (now : Nat) (deadline : Option Nat) : DeadlineRunner T E :=
  let s0 : DeadlineRunner T E := { s with timer := none }
  match deadline with
  | none => s0
  | some d =>
      if d ≤ now then s0.finish (some { timedOut := some true }) none
      else { s0 with timer := some d }

/-- The constructor (src/util.ts lines 35-46): the result promise starts
pending, the `then`/`catch` handlers of the inner promise are attached
(they arrive later as trace events), and `setDeadline(deadline)` runs at
construction time `now`. -/
def DeadlineRunner.init (T E : Type) (now : Nat) (deadline : Option Nat) :
    DeadlineRunner T E :=
  DeadlineRunner.setDeadline { timer := none, result := .pending } now deadline

/-- `raceAgainstDeadline(promise, deadline)` (src/util.ts lines 73-75)
just builds a `DeadlineRunner` and exposes its result. -/
def raceAgainstDeadline (T E : Type) (now : Nat) (deadline : Option Nat) :
    DeadlineRunner T E :=
  DeadlineRunner.init T E now deadline

/-- Events delivered by the event loop to a `DeadlineRunner`:
fulfillment/rejection of the inner promise (the `then`/`catch` handlers of
src/util.ts lines 40-44), the armed timeout callback firing at monotonic
time `now`, and an external `setDeadline` call. -/
inductive DREvent (T E : Type) where
  | innerFulfill (v : T)
  | innerReject (e : Option E)
  | timerFire (now : Nat)
  | setDL (now : Nat) (deadline : Option Nat)
deriving DecidableEq, Repr

/-- One event-loop step.  A timer callback only has an effect when a timer
is armed and due (a cleared timer never runs; the model makes a stale
firing a no-op, which is observationally the same). -/
def DeadlineRunner.step {T E : Type} (s : DeadlineRunner T E) :
    DREvent T E → DeadlineRunner T E
  | .innerFulfill v => s.finish (some { result := some v }) none
  | .innerReject e => s.finish none e
  | .timerFire now =>
      match s.timer with
      | some t => if t ≤ now then s.finish (some { timedOut := some true }) none else s
      | none => s
  | .setDL now d => s.setDeadline now d

/-- Run a trace of events in order. -/
def DeadlineRunner.run {T E : Type} (s : DeadlineRunner T E)
    (tr : List (DREvent T E)) : DeadlineRunner T E :=
  tr.foldl DeadlineRunner.step s

/-! ### Error serialization (src/util.ts lines 77-87) -/

/-- A JavaScript runtime value as far as `serializeError` distinguishes
them: an `Error` instance (with `message` and optional `stack`), or a
non-`Error` value. -/
inductive JSVal where
  | errorVal (message : String) (stack : Option String)
  | strVal (s : String)
  | numVal (n : Int)
  | boolVal (b : Bool)
  | nullVal
  | undefVal
deriving DecidableEq, Repr

/-- The `instanceof Error` check of src/util.ts line 78. -/
def JSVal.isError : JSVal → Bool
  | .errorVal _ _ => true
  | _ => false

/-- Modelled from Node's `util.inspect`: a rendering of an arbitrary value
to a string.  `serializeError` only applies it to non-`Error` values; the
exact text is irrelevant to the claims, only that the `value` field
carries `util.inspect` of the input. -/
def utilInspect : JSVal → String
  | .errorVal m _ => "Error: " ++ m
  | .strVal s => "\x27" ++ s ++ "\x27"
  | .numVal n => toString n
  | .boolVal b => toString b
  | .nullVal => "null"
  | .undefVal => "undefined"

/-- The `TestError` shape of src/types.ts as populated by
`serializeError`: either `{message, stack?}` or `{value}`. -/
structure TestError where
  message : Option String := none
  stack : Option String := none
  value : Option String := none
deriving DecidableEq, Repr

/-- `serializeError(error)` (src/util.ts lines 77-87). -/
def serializeError : JSVal → TestError
  | .errorVal m st => { message := some m, stack := st }
  | v => { value := some (utilInspect v) }

/-! ### Monotonic clock (src/util.ts lines 117-120) -/

/-- `monotonicTime()` over the pair returned by `process.hrtime()`:
`seconds * 1000 + (nanoseconds / 1000000 | 0)`.  Both components are
nonnegative integers, so the `| 0` truncation is `Nat` division. -/
def monotonicTime (seconds nanoseconds : Nat) : Nat :=
  seconds * 1000 + nanoseconds / 1000000

/-! ### File matcher (src/util.ts lines 133-159) -/

/-- A JavaScript `RegExp` as `createMatcher` uses it: `test` consumes the
current `lastIndex` and the string and yields the match outcome together
with the updated `lastIndex` (for a global regex, `test` both reads and
writes `lastIndex`; a non-global one ignores it — the model covers both). -/
structure RegExpM where
  test : Nat → String → Bool × Nat

/-- An element of the `patterns` argument of `createMatcher`:
a `RegExp` or a string. -/
inductive PatternArg where
  | regex (re : RegExpM)
  | str (s : String)

/-- JavaScript `String.prototype.includes` restricted to single-character
needles, as `createMatcher` uses it. -/
def stringIncludes (s : String) (c : Char) : Bool :=
  s.data.contains c

/-- The preprocessing loop of `createMatcher` (src/util.ts lines
134-145): regexes are collected in order into `reList`; a string pattern
containing neither `/` nor `\` is pushed as `**/` + pattern, any other
string pattern is pushed as is.  `acc` is the pair
`(reList, filePatterns)` accumulated so far. -/
def createMatcherLoop :
    List RegExpM × List String → List PatternArg → List RegExpM × List String
  | acc, [] => acc
  | acc, p :: rest =>
      match p with
      | .regex re => createMatcherLoop (acc.1 ++ [re], acc.2) rest
      | .str s =>
          if !(stringIncludes s '/') && !(stringIncludes s '\\') then
            createMatcherLoop (acc.1, acc.2 ++ ["**/" ++ s]) rest
          else
            createMatcherLoop (acc.1, acc.2 ++ [s]) rest

/-- `createMatcher(patterns)` preprocessing: both accumulators start
empty (src/util.ts lines 134-135). -/
def createMatcher (patterns : List PatternArg) : List RegExpM × List String :=
  createMatcherLoop ([], []) patterns

/-- Split a character list at `/` separators; part of the minimatch
model.  Always returns at least one (possibly empty) segment. -/
def splitSlash : List Char → List (List Char)
  | [] => [[]]
  | c :: cs =>
      let r := splitSlash cs
      if c = '/' then [] :: r
      else
        match r with
        | [] => [[c]]
        | sg :: rest => (c :: sg) :: rest

/-- Join segments with `/` separators (inverse of `splitSlash` on
slash-free segments); used to state depth properties of the matcher. -/
def joinSlash : List (List Char) → List Char
  | [] => []
  | [sg] => sg
  | sg :: rest => sg ++ '/' :: joinSlash rest

/-- `joinSlash` packaged as a `String`. -/
def joinSlashStr (segs : List (List Char)) : String :=
  String.mk (joinSlash segs)

/-- Glob match of one path segment: `*` matches any (possibly empty)
character sequence within the segment, `?` matches exactly one character,
anything else matches itself.  Part of the minimatch model; the
hidden-file (`dot`) rule is enforced per segment by `matchSegDot`. -/
def matchSeg : List Char → List Char → Bool
  | [], [] => true
  | [], _ :: _ => false
  | '*' :: ps, [] => matchSeg ps []
  | '*' :: ps, c :: cs => matchSeg ps (c :: cs) || matchSeg ('*' :: ps) cs
  | _ :: _, [] => false
  | p :: ps, c :: cs => (p == c || p == '?') && matchSeg ps cs
termination_by p s => (p.length, s.length)

/-- A path segment naming a hidden file or directory: one that starts
with a dot. -/
def isDotSeg : List Char → Bool
  | '.' :: _ => true
  | _ => false

/-- Segment match under minimatch's default `dot:false` rule (the
library is called with no options from src/util.ts): a value segment
starting with `.` is matched only by a pattern segment that itself
starts with a literal `.`; otherwise plain `matchSeg` applies. -/
def matchSegDot (p v : List Char) : Bool :=
  if isDotSeg v then
    if isDotSeg p then matchSeg p v else false
  else matchSeg p v

/-- Glob match of segment lists: a pattern segment that is exactly `**`
(the globstar) matches zero or more path segments — none of which may
start with a dot, per the default `dot:false` rule — and any other
pattern segment must match exactly one path segment via `matchSegDot`.
Part of the minimatch model. -/
def matchSegs : List (List Char) → List (List Char) → Bool
  | [], [] => true
  | [], _ :: _ => false
  | p :: ps, segs =>
      if p = ['*', '*'] then
        matchSegs ps segs ||
          (match segs with
           | [] => false
           | sg :: rest => !isDotSeg sg && matchSegs (p :: ps) rest)
      else
        match segs with
        | [] => false
        | sg :: rest => matchSegDot p sg && matchSegs ps rest
termination_by p s => (p.length, s.length)

/-- Modelled from the minimatch library (an external dependency of
src/util.ts, invoked with no options): `minimatch(value, pattern)`
splits both on `/` and matches segment lists, with `**` matching any
number of non-hidden path segments and the default `dot:false` rule
keeping wildcards from matching segments that start with a dot.  The
model covers the glob fragment built from literal characters, `*`, `?`
and the `**` segment; it does not implement character classes `[...]`,
brace expansion `{...}`, extglobs, leading-`!` negation or leading-`#`
comments, and the theorems about it restrict pattern strings to the
covered fragment via `simpleGlobChar`. -/
def minimatch (value pattern : String) : Bool :=
  matchSegs (splitSlash pattern.data) (splitSlash value.data)

/-- Characters of the glob fragment covered by the minimatch model:
everything except the characters that switch minimatch into syntax the
model does not implement (character classes, brace expansion, extglob
groups, negation, comments). -/
def simpleGlobChar (c : Char) : Bool :=
  !(c == '[' || c == ']' || c == '{' || c == '}' || c == '(' || c == ')'
    || c == '|' || c == '+' || c == '@' || c == '!' || c == '#')

/-- The regex loop of the closure returned by `createMatcher`
(src/util.ts lines 148-152): each regex has its `lastIndex` reset to `0`
before `test`; the loop returns early on the first match, leaving the
remaining regexes untouched. -/
def runRegExps : List (RegExpM × Nat) → String → Bool × List (RegExpM × Nat)
  | [], _ => (false, [])
  | (re, _) :: rest, value =>
      let t := re.test 0 value
      if t.1 then (true, (re, t.2) :: rest)
      else
        let r := runRegExps rest value
        (r.1, (re, t.2) :: r.2)

/-- The closure returned by `createMatcher` (src/util.ts lines 147-158):
first the regexes (with `lastIndex` reset), then the minimatch patterns.
The runner state is the list of regexes paired with their current
`lastIndex` values; the call returns the boolean and the updated state. -/
def matcherFn (res : List (RegExpM × Nat)) (filePatterns : List String)
    (value : String) : Bool × List (RegExpM × Nat) :=
  let r := runRegExps res value
  if r.1 then (true, r.2)
  else (filePatterns.any (fun p => minimatch value p), r.2)

/-! ### Dispatcher and worker pool

The dispatcher itself is not part of the sources under `src/` (only its
tests, in the repository's test files, are), so it is modelled from the
specification (§4.5) and constrained by those tests. -/

/-- A runnable test as the dispatcher sees it: the file it was declared
in, its worker fixture hash, and whether its body passes. -/
structure TestSpec where
  file : String
  hash : Nat
  passes : Bool
deriving DecidableEq, Repr

/-- Modelled from the spec: the dispatcher partitions the ordered test
list into maximal contiguous runs sharing a file and a fixture hash
(§4.5 hash-runs; the repository's own parallelism test additionally
requires tests of different files to form separate jobs, since two
same-hash tests in different files must be able to run in two workers
at once). -/
def chunkTests : List TestSpec → List (List TestSpec)
  | [] => []
  | t :: ts =>
      match chunkTests ts with
      | [] => [[t]]
      | [] :: rest => [t] :: [] :: rest
      | (u :: us) :: rest =>
          if t.file = u.file ∧ t.hash = u.hash then (t :: u :: us) :: rest
          else [t] :: (u :: us) :: rest

/-- The fixture hash of a job (all its tests share it). -/
def jobHash (j : List TestSpec) : Nat :=
  match j with
  | [] => 0
  | t :: _ => t.hash

/-- The file of a job (all its tests share it). -/
def jobFile (j : List TestSpec) : String :=
  match j with
  | [] => ""
  | t :: _ => t.file

/-- A worker process in the pool: its `workerIndex` (assigned from a
monotone counter at spawn time), the fixture hash it is bound to for its
whole lifetime, and whether it is still clean (`ok = false` after a test
failed in it: such a worker is discarded instead of returning to the free
pool). -/
structure WorkerM where
  index : Nat
  hash : Nat
  ok : Bool
deriving DecidableEq, Repr

/-- Dispatcher bookkeeping: the next fresh worker index, the workers
currently running a job, and the free workers in least-recently-used
order. -/
structure DispatchState where
  nextIndex : Nat
  busy : List WorkerM
  free : List WorkerM
deriving DecidableEq, Repr

/-- Find the first free worker bound to hash `h`. -/
def findMatch (h : Nat) : List WorkerM → Option (WorkerM × List WorkerM)
  | [] => none
  | w :: ws =>
      if w.hash = h then some (w, ws)
      else
        match findMatch h ws with
        | some (w2, rest) => some (w2, w :: rest)
        | none => none

/-- Modelled from the spec (§4.5): to assign a job with hash `h`, prefer
a free worker already bound to `h`; else spawn a new worker if the pool
has capacity below `W`; else terminate the least-recently-used free
worker (necessarily of a different hash) and spawn a fresh one; if every
worker is busy, the job must wait. -/
def tryAssign (W : Nat) (st : DispatchState) (h : Nat) :
    Option (DispatchState × Nat) :=
  match findMatch h st.free with
  | some (w, restFree) =>
      some ({ st with free := restFree, busy := w :: st.busy }, w.index)
  | none =>
      if st.busy.length + st.free.length < W then
        some ({ st with nextIndex := st.nextIndex + 1,
                        busy := ⟨st.nextIndex, h, true⟩ :: st.busy }, st.nextIndex)
      else
        match st.free with
        | [] => none
        | _ :: restFree =>
            some ({ st with free := restFree, nextIndex := st.nextIndex + 1,
                            busy := ⟨st.nextIndex, h, true⟩ :: st.busy }, st.nextIndex)

/-- A worker with index `c` finished its job: a clean worker returns to
the free pool (at the least-recently-used tail); a failed worker is
discarded. -/
def completeWorker (st : DispatchState) (c : Nat) : DispatchState :=
  { st with
    busy := st.busy.filter (fun w => w.index != c)
    free := st.free ++ st.busy.filter (fun w => w.index == c && w.ok) }

/-- Split a job at its first failing test: the first component is the
run actually executed by one worker (up to and including the first
failure), the second is the remainder that is re-enqueued for a fresh
worker (§4.5: a failure discards the worker). -/
def splitRun : List TestSpec → List TestSpec × List TestSpec
  | [] => ([], [])
  | t :: ts =>
      if t.passes then
        let r := splitRun ts
        (t :: r.1, r.2)
      else ([t], ts)

/-- Mark the busy worker with index `idx` as failed. -/
def markDead (st : DispatchState) (idx : Nat) : DispatchState :=
  { st with
    busy := st.busy.map (fun w => if w.index == idx then { w with ok := false } else w) }

/-- Modelled from the spec (§4.5): the dispatcher loop.  Jobs are taken
in order; an assignable job is streamed to its worker (and, if a test
fails, the worker is marked failed and the remainder of the job is
re-enqueued at the head); when no worker is available the dispatcher
suspends until the next completion event (the `comps` list gives the
order in which busy workers complete).  `fuel` bounds the number of
steps and is chosen large enough by `runTests`. -/
def dispatchLoop (W : Nat) : Nat → DispatchState → List (List TestSpec) →
    List Nat → List (List TestSpec × Nat)
  | 0, _, _, _ => []
  | _ + 1, _, [], _ => []
  | fuel + 1, st, j :: rest, comps =>
      match tryAssign W st (jobHash j) with
      | some (st2, idx) =>
          let sr := splitRun j
          if sr.2.isEmpty then
            (sr.1, idx) :: dispatchLoop W fuel st2 rest comps
          else
            (sr.1, idx) :: dispatchLoop W fuel (markDead st2 idx) (sr.2 :: rest) comps
      | none =>
          match comps with
          | [] => []
          | c :: crest => dispatchLoop W fuel (completeWorker st c) (j :: rest) crest

/-- The pool starts empty with worker indices counted from 0. -/
def initialState : DispatchState :=
  ⟨0, [], []⟩

/-- Flatten job-level assignments into one result row per test, in
dispatch order. -/
def flattenAssignments (out : List (List TestSpec × Nat)) : List (TestSpec × Nat) :=
  match out with
  | [] => []
  | p :: rest => p.1.map (fun t => (t, p.2)) ++ flattenAssignments rest

/-- Run a whole test list through the modelled dispatcher: chunk into
jobs, dispatch with pool bound `W` and completion order `comps`, and
flatten to per-test results carrying the `workerIndex`. -/
def runTests (W : Nat) (ts : List TestSpec) (comps : List Nat) :
    List (TestSpec × Nat) :=
  flattenAssignments
    (dispatchLoop W (2 * ts.length + comps.length + 1) initialState
      (chunkTests ts) comps)

/-- Aggregate run outcome, as the reporters summarize it. -/
structure RunSummary where
  passed : Nat
  failed : Nat
  exitCode : Nat
  workerIndices : List Nat
deriving DecidableEq, Repr

/-- Modelled from the spec (§6.5): counts of passed/failed tests, the
exit code (0 when everything passed, 1 otherwise), and the `workerIndex`
of every test result in dispatch order. -/
def runSummary (W : Nat) (ts : List TestSpec) (comps : List Nat) : RunSummary :=
  let res := runTests W ts comps
  let failedCount := (res.filter (fun p => !p.1.passes)).length
  { passed := (res.filter (fun p => p.1.passes)).length
    failed := failedCount
    exitCode := if failedCount = 0 then 0 else 1
    workerIndices := res.map (fun p => p.2) }

/-- The two spec files of the repository's parallelism test (`should run
in parallel`): one passing test each, same (default) fixture hash. -/
def parallelTests : List TestSpec :=
  [⟨"1.spec.ts", 0, true⟩, ⟨"2.spec.ts", 0, true⟩]

/-- The single file of the worker-reuse test (`should reuse worker for
multiple tests`): three passing tests, same file and hash. -/
def reuseTests : List TestSpec :=
  [⟨"a.test.js", 0, true⟩, ⟨"a.test.js", 0, true⟩, ⟨"a.test.js", 0, true⟩]

/-- The three-project test (`should not reuse worker for different
suites`): one spec expanded once per project, each with a distinct
fixture hash. -/
def projectTests : List TestSpec :=
  [⟨"a.test.js", 0, true⟩, ⟨"a.test.js", 1, true⟩, ⟨"a.test.js", 2, true⟩]

/-! ## Theorems -/

/-! ### Deadline runner: helper lemmas -/

theorem PromiseCell.fulfill_of_settled {R E : Type} (r : PromiseCell R E) (v : R)
    (h : r ≠ .pending) : r.fulfill v = r := by
  cases r with
  | pending => exact absurd rfl h
  | fulfilled _ => rfl
  | rejected _ => rfl

theorem PromiseCell.reject_of_settled {R E : Type} (r : PromiseCell R E) (e : Option E)
    (h : r ≠ .pending) : r.reject e = r := by
  cases r with
  | pending => exact absurd rfl h
  | fulfilled _ => rfl
  | rejected _ => rfl

theorem DeadlineRunner.run_cons {T E : Type} (s : DeadlineRunner T E)
    (e : DREvent T E) (tr : List (DREvent T E)) :
    s.run (e :: tr) = (s.step e).run tr := rfl

theorem DeadlineRunner.run_append {T E : Type} (s : DeadlineRunner T E)
    (tr1 tr2 : List (DREvent T E)) :
    s.run (tr1 ++ tr2) = (s.run tr1).run tr2 := by
  simp [DeadlineRunner.run, List.foldl_append]

theorem DeadlineRunner.step_result_of_settled {T E : Type} (s : DeadlineRunner T E)
    (e : DREvent T E) (h : s.result ≠ .pending) : (s.step e).result = s.result := by
  cases e with
  | innerFulfill v =>
      simp [DeadlineRunner.step, DeadlineRunner.finish,
        PromiseCell.fulfill_of_settled _ _ h]
  | innerReject er =>
      simp [DeadlineRunner.step, DeadlineRunner.finish,
        PromiseCell.reject_of_settled _ _ h]
  | timerFire n =>
      cases ht : s.timer with
      | none => simp [DeadlineRunner.step, ht]
      | some t =>
          by_cases hn : t ≤ n
          · simp [DeadlineRunner.step, ht, hn, DeadlineRunner.finish,
              PromiseCell.fulfill_of_settled _ _ h]
          · simp [DeadlineRunner.step, ht, hn]
  | setDL n d =>
      cases d with
      | none => simp [DeadlineRunner.step, DeadlineRunner.setDeadline]
      | some dl =>
          by_cases hd : dl ≤ n
          · simp [DeadlineRunner.step, DeadlineRunner.setDeadline, hd,
              DeadlineRunner.finish, PromiseCell.fulfill_of_settled _ _ h]
          · simp [DeadlineRunner.step, DeadlineRunner.setDeadline, hd]

theorem DeadlineRunner.run_result_of_settled {T E : Type} (s : DeadlineRunner T E)
    (tr : List (DREvent T E)) (h : s.result ≠ .pending) :
    (s.run tr).result = s.result := by
  induction tr generalizing s with
  | nil => rfl
  | cons e tr ih =>
      rw [DeadlineRunner.run_cons]
      have hstep := DeadlineRunner.step_result_of_settled s e h
      rw [ih (s.step e) (by rw [hstep]; exact h), hstep]

theorem DeadlineRunner.run_early_fires {T E : Type} (s : DeadlineRunner T E)
    (dl : Nat) (pre : List (DREvent T E)) (ht : s.timer = some dl)
    (hp : ∀ e ∈ pre, ∃ n, e = DREvent.timerFire n ∧ n < dl) :
    s.run pre = s := by
  induction pre with
  | nil => rfl
  | cons e pre ih =>
      obtain ⟨n, he, hn⟩ := hp e (List.mem_cons_self _ _)
      subst he
      have hstep : s.step (DREvent.timerFire n) = s := by
        simp [DeadlineRunner.step, ht, Nat.not_le.mpr hn]
      rw [DeadlineRunner.run_cons, hstep]
      exact ih (fun e he => hp e (List.mem_cons_of_mem _ he))

theorem DeadlineRunner.run_fires_timer_none {T E : Type} (s : DeadlineRunner T E)
    (tr : List (DREvent T E)) (ht : s.timer = none)
    (hp : ∀ e ∈ tr, ∃ n, e = DREvent.timerFire n) :
    s.run tr = s := by
  induction tr with
  | nil => rfl
  | cons e tr ih =>
      obtain ⟨n, he⟩ := hp e (List.mem_cons_self _ _)
      subst he
      have hstep : s.step (DREvent.timerFire n) = s := by
        simp [DeadlineRunner.step, ht]
      rw [DeadlineRunner.run_cons, hstep]
      exact ih (fun e he => hp e (List.mem_cons_of_mem _ he))

theorem DeadlineRunner.init_future {T E : Type} (t0 dl : Nat) (h : t0 < dl) :
    raceAgainstDeadline T E t0 (some dl) = ⟨some dl, .pending⟩ := by
  simp [raceAgainstDeadline, DeadlineRunner.init, DeadlineRunner.setDeadline,
    Nat.not_le.mpr h]

theorem DeadlineRunner.init_none {T E : Type} (t0 : Nat) :
    raceAgainstDeadline T E t0 none = ⟨none, .pending⟩ := rfl

/-! ### Deadline runner: the claims -/

/-- Claim C1: `raceAgainstDeadline(p, d)` resolves with `{result: v}` when
the inner operation fulfills with `v` before the deadline elapses (any
timer callbacks delivered before that point are strictly before the
deadline and are no-ops), resolves with `{timedOut: true}` when the
deadline elapses (a due timer fires) before the inner operation settles,
and with `d = undefined` never times out: the result stays pending under
timer events alone and resolves with `{result: v}` once the inner
operation fulfills. -/
theorem raceAgainstDeadline_spec {T E : Type} :
    (∀ (t0 dl : Nat) (v : T) (pre rest : List (DREvent T E)),
      t0 < dl →
      (∀ e ∈ pre, ∃ n, e = DREvent.timerFire n ∧ n < dl) →
      ((raceAgainstDeadline T E t0 (some dl)).run
          (pre ++ DREvent.innerFulfill v :: rest)).result
        = PromiseCell.fulfilled { result := some v }) ∧
    (∀ (t0 dl n : Nat) (pre rest : List (DREvent T E)),
      t0 < dl → dl ≤ n →
      (∀ e ∈ pre, ∃ m, e = DREvent.timerFire m ∧ m < dl) →
      ((raceAgainstDeadline T E t0 (some dl)).run
          (pre ++ DREvent.timerFire n :: rest)).result
        = PromiseCell.fulfilled { timedOut := some true }) ∧
    (∀ (t0 : Nat) (tr : List (DREvent T E)),
      (∀ e ∈ tr, ∃ m, e = DREvent.timerFire m) →
      ((raceAgainstDeadline T E t0 none).run tr).result = PromiseCell.pending) ∧
    (∀ (t0 : Nat) (v : T) (pre rest : List (DREvent T E)),
      (∀ e ∈ pre, ∃ m, e = DREvent.timerFire m) →
      ((raceAgainstDeadline T E t0 none).run
          (pre ++ DREvent.innerFulfill v :: rest)).result
        = PromiseCell.fulfilled { result := some v }) := by
  refine ⟨?_, ?_, ?_, ?_⟩
  · intro t0 dl v pre rest h hp
    rw [DeadlineRunner.init_future t0 dl h, DeadlineRunner.run_append,
      DeadlineRunner.run_early_fires _ dl pre rfl hp, DeadlineRunner.run_cons]
    exact DeadlineRunner.run_result_of_settled _ rest (by simp [DeadlineRunner.step,
      DeadlineRunner.finish, PromiseCell.fulfill])
  · intro t0 dl n pre rest h hn hp
    rw [DeadlineRunner.init_future t0 dl h, DeadlineRunner.run_append,
      DeadlineRunner.run_early_fires _ dl pre rfl hp, DeadlineRunner.run_cons]
    have hstep : (⟨some dl, PromiseCell.pending⟩ : DeadlineRunner T E).step
        (DREvent.timerFire n)
        = ⟨none, PromiseCell.fulfilled { timedOut := some true }⟩ := by
      simp [DeadlineRunner.step, hn, DeadlineRunner.finish, PromiseCell.fulfill]
    rw [hstep]
    exact DeadlineRunner.run_result_of_settled _ rest (by simp)
  · intro t0 tr hp
    rw [DeadlineRunner.init_none, DeadlineRunner.run_fires_timer_none _ tr rfl hp]
  · intro t0 v pre rest hp
    rw [DeadlineRunner.init_none, DeadlineRunner.run_append,
      DeadlineRunner.run_fires_timer_none _ pre rfl hp, DeadlineRunner.run_cons]
    exact DeadlineRunner.run_result_of_settled _ rest (by simp [DeadlineRunner.step,
      DeadlineRunner.finish, PromiseCell.fulfill])

/-- Witness for C1: concrete instantiations of all four conjuncts, with a
stale (pre-deadline) timer callback before the decisive event. -/
theorem raceAgainstDeadline_spec_witness :
    ((raceAgainstDeadline Nat String 0 (some 5)).run
        [DREvent.timerFire 3, DREvent.innerFulfill 7, DREvent.timerFire 9]).result
      = PromiseCell.fulfilled { result := some 7 } ∧
    ((raceAgainstDeadline Nat String 0 (some 5)).run
        [DREvent.timerFire 3, DREvent.timerFire 6, DREvent.innerFulfill 7]).result
      = PromiseCell.fulfilled { timedOut := some true } ∧
    ((raceAgainstDeadline Nat String 0 none).run [DREvent.timerFire 100]).result
      = PromiseCell.pending ∧
    ((raceAgainstDeadline Nat String 0 none).run
        [DREvent.timerFire 100, DREvent.innerFulfill 7]).result
      = PromiseCell.fulfilled { result := some 7 } := by
  refine ⟨?_, ?_, ?_, ?_⟩
  · exact raceAgainstDeadline_spec.1 0 5 7 [DREvent.timerFire 3] [DREvent.timerFire 9]
      (by omega)
      (by intro e he
          rw [List.mem_singleton] at he
          exact ⟨3, he, by omega⟩)
  · exact raceAgainstDeadline_spec.2.1 0 5 6 [DREvent.timerFire 3] [DREvent.innerFulfill 7]
      (by omega) (by omega)
      (by intro e he
          rw [List.mem_singleton] at he
          exact ⟨3, he, by omega⟩)
  · exact raceAgainstDeadline_spec.2.2.1 0 [DREvent.timerFire 100]
      (by intro e he
          rw [List.mem_singleton] at he
          exact ⟨100, he⟩)
  · exact raceAgainstDeadline_spec.2.2.2 0 7 [DREvent.timerFire 100] []
      (by intro e he
          rw [List.mem_singleton] at he
          exact ⟨100, he⟩)

/-- Claim C2: the result promise settles at most once and its first
settlement is final — after any settlement (in particular after resolving
with `{timedOut: true}`), no later event (inner fulfillment, inner
rejection, or a deadline firing) changes the observable result. -/
theorem deadlineRunner_first_settlement_final {T E : Type} :
    ∀ (s : DeadlineRunner T E) (tr : List (DREvent T E)),
      s.result ≠ PromiseCell.pending → (s.run tr).result = s.result :=
  fun s tr h => DeadlineRunner.run_result_of_settled s tr h

/-- Witness for C2: a runner that already timed out at construction
(deadline 3 at time 5) keeps `{timedOut: true}` under a later inner
fulfillment and a later timer firing. -/
theorem deadlineRunner_first_settlement_final_witness :
    ((raceAgainstDeadline Nat String 5 (some 3)).run
        [DREvent.innerFulfill 7, DREvent.timerFire 10]).result
      = (raceAgainstDeadline Nat String 5 (some 3)).result :=
  deadlineRunner_first_settlement_final _ _ (by decide)

/-- Claim C5: `setDeadline` always discards the previously armed timer
(afterwards the timer is either cleared or the newly given deadline);
`undefined` disables the timeout leaving the result untouched; a future
deadline arms the timer at that deadline leaving the result untouched; a
deadline at or before the current monotonic time resolves a pending
result immediately with `{timedOut: true}` and leaves no armed timer. -/
theorem setDeadline_spec {T E : Type} :
    ∀ (s : DeadlineRunner T E) (now : Nat),
      ((s.setDeadline now none).timer = none ∧
        (s.setDeadline now none).result = s.result) ∧
      (∀ d, (s.setDeadline now d).timer = none ∨ (s.setDeadline now d).timer = d) ∧
      (∀ dl, now < dl →
        (s.setDeadline now (some dl)).timer = some dl ∧
        (s.setDeadline now (some dl)).result = s.result) ∧
      (∀ dl, dl ≤ now → s.result = PromiseCell.pending →
        (s.setDeadline now (some dl)).result
            = PromiseCell.fulfilled { timedOut := some true } ∧
        (s.setDeadline now (some dl)).timer = none) := by
  intro s now
  refine ⟨⟨rfl, rfl⟩, ?_, ?_, ?_⟩
  · intro d
    cases d with
    | none => exact Or.inl rfl
    | some dl =>
        by_cases hd : dl ≤ now
        · exact Or.inl (by simp [DeadlineRunner.setDeadline, hd, DeadlineRunner.finish])
        · exact Or.inr (by simp [DeadlineRunner.setDeadline, hd])
  · intro dl h
    constructor
    · simp [DeadlineRunner.setDeadline, Nat.not_le.mpr h]
    · simp [DeadlineRunner.setDeadline, Nat.not_le.mpr h]
  · intro dl h hr
    constructor
    · simp [DeadlineRunner.setDeadline, h, DeadlineRunner.finish, hr,
        PromiseCell.fulfill]
    · simp [DeadlineRunner.setDeadline, h, DeadlineRunner.finish]

/-- Witness for C5: concrete instantiations at a runner with an armed
timer and a pending result. -/
theorem setDeadline_spec_witness :
    (((raceAgainstDeadline Nat String 0 (some 5)).setDeadline 2 none).timer = none ∧
      ((raceAgainstDeadline Nat String 0 (some 5)).setDeadline 2 none).result
        = (raceAgainstDeadline Nat String 0 (some 5)).result) ∧
    (((raceAgainstDeadline Nat String 0 (some 5)).setDeadline 2 (some 9)).timer
        = some 9 ∧
      ((raceAgainstDeadline Nat String 0 (some 5)).setDeadline 2 (some 9)).result
        = (raceAgainstDeadline Nat String 0 (some 5)).result) ∧
    (((raceAgainstDeadline Nat String 0 (some 5)).setDeadline 2 (some 1)).result
        = PromiseCell.fulfilled { timedOut := some true } ∧
      ((raceAgainstDeadline Nat String 0 (some 5)).setDeadline 2 (some 1)).timer
        = none) :=
  ⟨(setDeadline_spec (raceAgainstDeadline Nat String 0 (some 5)) 2).1,
    (setDeadline_spec (raceAgainstDeadline Nat String 0 (some 5)) 2).2.2.1 9 (by omega),
    (setDeadline_spec (raceAgainstDeadline Nat String 0 (some 5)) 2).2.2.2 1 (by omega)
      (by decide)⟩

/-- Claim C8: if the inner promise rejects before the deadline elapses,
the runner's result rejects with the same error (rather than resolving
with `{result}` or `{timedOut}`), the pending deadline timer is cleared
at that point, and the rejection is final under any later events. -/
theorem deadlineRunner_inner_rejection {T E : Type} :
    ∀ (t0 dl : Nat) (e : Option E) (pre rest : List (DREvent T E)),
      t0 < dl →
      (∀ ev ∈ pre, ∃ m, ev = DREvent.timerFire m ∧ m < dl) →
      ((raceAgainstDeadline T E t0 (some dl)).run
          (pre ++ [DREvent.innerReject e])).result = PromiseCell.rejected e ∧
      ((raceAgainstDeadline T E t0 (some dl)).run
          (pre ++ [DREvent.innerReject e])).timer = none ∧
      ((raceAgainstDeadline T E t0 (some dl)).run
          (pre ++ DREvent.innerReject e :: rest)).result = PromiseCell.rejected e := by
  intro t0 dl e pre rest h hp
  have hbase : (raceAgainstDeadline T E t0 (some dl)).run pre
      = ⟨some dl, PromiseCell.pending⟩ := by
    rw [DeadlineRunner.init_future t0 dl h]
    exact DeadlineRunner.run_early_fires _ dl pre rfl hp
  have hstep : (⟨some dl, PromiseCell.pending⟩ : DeadlineRunner T E).step
      (DREvent.innerReject e) = ⟨none, PromiseCell.rejected e⟩ := by
    simp [DeadlineRunner.step, DeadlineRunner.finish, PromiseCell.reject]
  refine ⟨?_, ?_, ?_⟩
  · rw [DeadlineRunner.run_append, hbase]
    rw [show ((⟨some dl, PromiseCell.pending⟩ : DeadlineRunner T E).run
        [DREvent.innerReject e]) = ⟨none, PromiseCell.rejected e⟩ from hstep]
  · rw [DeadlineRunner.run_append, hbase]
    rw [show ((⟨some dl, PromiseCell.pending⟩ : DeadlineRunner T E).run
        [DREvent.innerReject e]) = ⟨none, PromiseCell.rejected e⟩ from hstep]
  · rw [DeadlineRunner.run_append, hbase, DeadlineRunner.run_cons, hstep]
    exact DeadlineRunner.run_result_of_settled _ rest (by simp)

/-- Witness for C8: a rejection with error "boom" at deadline 5, after a
stale timer callback and followed by a late timer firing. -/
theorem deadlineRunner_inner_rejection_witness :
    ((raceAgainstDeadline Nat String 0 (some 5)).run
        [DREvent.timerFire 2, DREvent.innerReject (some "boom")]).result
      = PromiseCell.rejected (some "boom") ∧
    ((raceAgainstDeadline Nat String 0 (some 5)).run
        [DREvent.timerFire 2, DREvent.innerReject (some "boom")]).timer = none ∧
    ((raceAgainstDeadline Nat String 0 (some 5)).run
        [DREvent.timerFire 2, DREvent.innerReject (some "boom"),
          DREvent.timerFire 50]).result
      = PromiseCell.rejected (some "boom") :=
  deadlineRunner_inner_rejection 0 5 (some "boom") [DREvent.timerFire 2]
    [DREvent.timerFire 50] (by omega)
    (by intro ev hev
        rw [List.mem_singleton] at hev
        exact ⟨2, hev, by omega⟩)

/-! ### Error serialization and monotonic clock claims -/

/-- Claim C6: `serializeError` maps every value to exactly one of the two
`TestError` shapes — an `Error` instance to `{message: error.message,
stack: error.stack}` with no `value` field, every non-`Error` value to
`{value: util.inspect(value)}` with no `message`/`stack` fields — and no
input yields an object carrying both a `message` and a `value`. -/
theorem serializeError_shape :
    (∀ (m : String) (st : Option String),
      serializeError (JSVal.errorVal m st)
        = { message := some m, stack := st, value := none }) ∧
    (∀ v : JSVal, v.isError = false →
      serializeError v
        = { message := none, stack := none, value := some (utilInspect v) }) ∧
    (∀ v : JSVal,
      ¬((serializeError v).message.isSome ∧ (serializeError v).value.isSome)) := by
  refine ⟨fun m st => rfl, ?_, ?_⟩
  · intro v hv
    cases v <;> simp_all [serializeError, JSVal.isError]
  · intro v
    cases v <;> simp [serializeError]

/-- Witness for C6: the non-`Error` branch at the value `42`. -/
theorem serializeError_shape_witness :
    serializeError (JSVal.numVal 42)
      = { message := none, stack := none,
          value := some (utilInspect (JSVal.numVal 42)) } :=
  serializeError_shape.2.1 (JSVal.numVal 42) rfl

theorem monotonicTime_eq_div (s n : Nat) :
    monotonicTime s n = (s * 1000000000 + n) / 1000000 := by
  rw [monotonicTime]
  omega

/-- Claim C9: `monotonicTime` computes `seconds * 1000` plus the
nanoseconds divided by 1e6 truncated toward zero (equivalently, the whole
`hrtime` reading in nanoseconds divided by 1e6, truncated); it is
monotone in the total nanosecond reading, so successive calls of the
nondecreasing `process.hrtime` yield nondecreasing values; and the
truncation error is strictly below one millisecond (1e6 nanoseconds).
The result is a `Nat`, hence a nonnegative integer. -/
theorem monotonicTime_spec :
    (∀ s n : Nat, monotonicTime s n = (s * 1000000000 + n) / 1000000) ∧
    (∀ s n s2 n2 : Nat,
      s * 1000000000 + n ≤ s2 * 1000000000 + n2 →
      monotonicTime s n ≤ monotonicTime s2 n2) ∧
    (∀ s n : Nat,
      monotonicTime s n * 1000000 ≤ s * 1000000000 + n ∧
      s * 1000000000 + n < (monotonicTime s n + 1) * 1000000) := by
  refine ⟨monotonicTime_eq_div, ?_, ?_⟩
  · intro s n s2 n2 h
    rw [monotonicTime, monotonicTime]
    omega
  · intro s n
    rw [monotonicTime_eq_div]
    constructor
    · omega
    · omega

/-- Witness for C9: the monotonicity conjunct at the readings
`(1s, 999999ns)` and `(2s, 5ns)`. -/
theorem monotonicTime_spec_witness :
    monotonicTime 1 999999 ≤ monotonicTime 2 5 :=
  monotonicTime_spec.2.1 1 999999 2 5 (by omega)

/-! ### File matcher: helper lemmas -/

theorem runRegExps_fst_congr (res res2 : List (RegExpM × Nat)) (value : String)
    (h : res.map Prod.fst = res2.map Prod.fst) :
    (runRegExps res value).1 = (runRegExps res2 value).1 := by
  induction res generalizing res2 with
  | nil =>
      cases res2 with
      | nil => rfl
      | cons q qs => simp at h
  | cons p ps ih =>
      cases res2 with
      | nil => simp at h
      | cons q qs =>
          obtain ⟨p1, p2⟩ := p
          obtain ⟨q1, q2⟩ := q
          simp only [List.map_cons, List.cons.injEq] at h
          obtain ⟨hre, htl⟩ := h
          subst hre
          simp only [runRegExps]
          by_cases ht : (p1.test 0 value).1
          · simp [ht]
          · simp [ht, ih qs htl]

theorem matcherFn_fst_congr (res res2 : List (RegExpM × Nat))
    (pats : List String) (value : String)
    (h : res.map Prod.fst = res2.map Prod.fst) :
    (matcherFn res pats value).1 = (matcherFn res2 pats value).1 := by
  simp only [matcherFn]
  rw [runRegExps_fst_congr res res2 value h]
  by_cases hr : (runRegExps res2 value).1 <;> simp [hr]

theorem matcherFn_of_pattern (res : List (RegExpM × Nat)) (pats : List String)
    (value p : String) (hp : p ∈ pats) (hm : minimatch value p = true) :
    (matcherFn res pats value).1 = true := by
  simp only [matcherFn]
  by_cases hr : (runRegExps res value).1
  · simp [hr]
  · simp only [hr, if_false]
    exact List.any_eq_true.mpr ⟨p, hp, hm⟩

theorem createMatcherLoop_mem_mono (pats : List PatternArg)
    (acc : List RegExpM × List String) (x : String) (hx : x ∈ acc.2) :
    x ∈ (createMatcherLoop acc pats).2 := by
  induction pats generalizing acc with
  | nil => exact hx
  | cons p rest ih =>
      cases p with
      | regex re => exact ih (acc.1 ++ [re], acc.2) hx
      | str s =>
          by_cases hc : !(stringIncludes s '/') && !(stringIncludes s '\\')
          · simp only [createMatcherLoop, hc, if_true]
            exact ih _ (List.mem_append_left _ hx)
          · simp only [createMatcherLoop, hc, if_false]
            exact ih _ (List.mem_append_left _ hx)

theorem createMatcherLoop_mem (pats : List PatternArg)
    (acc : List RegExpM × List String) (s : String)
    (hmem : PatternArg.str s ∈ pats)
    (h1 : stringIncludes s '/' = false) (h2 : stringIncludes s '\\' = false) :
    ("**/" ++ s) ∈ (createMatcherLoop acc pats).2 := by
  induction pats generalizing acc with
  | nil => simp at hmem
  | cons p rest ih =>
      rcases List.mem_cons.mp hmem with heq | htl
      · subst heq
        have hc : !(stringIncludes s '/') && !(stringIncludes s '\\') := by
          simp [h1, h2]
        simp only [createMatcherLoop, hc, if_true]
        exact createMatcherLoop_mem_mono rest _ _
          (List.mem_append_right _ (List.mem_singleton.mpr rfl))
      · cases p with
        | regex re => exact ih _ htl
        | str s2 =>
            by_cases hc : !(stringIncludes s2 '/') && !(stringIncludes s2 '\\')
            · simp only [createMatcherLoop, hc, if_true]
              exact ih _ htl
            · simp only [createMatcherLoop, hc, if_false]
              exact ih _ htl

theorem splitSlash_append (x : List Char) (cs sg : List Char)
    (rest : List (List Char)) (hx : '/' ∉ x) (hcs : splitSlash cs = sg :: rest) :
    splitSlash (x ++ cs) = (x ++ sg) :: rest := by
  induction x with
  | nil => simpa using hcs
  | cons c x ih =>
      have hc : ¬(c = '/') := fun h => hx (h ▸ List.mem_cons_self _ _)
      have hx2 : '/' ∉ x := fun h => hx (List.mem_cons_of_mem _ h)
      simp only [List.cons_append, splitSlash, List.append_eq, ih hx2, hc, if_false]

theorem splitSlash_nil_eq : splitSlash [] = [] :: [] := rfl

theorem splitSlash_slashfree (x : List Char) (hx : '/' ∉ x) :
    splitSlash x = [x] := by
  have := splitSlash_append x [] [] [] hx splitSlash_nil_eq
  simpa using this

theorem splitSlash_joinSlash (segs : List (List Char)) (hne : segs ≠ [])
    (hfree : ∀ sg ∈ segs, '/' ∉ sg) : splitSlash (joinSlash segs) = segs := by
  induction segs with
  | nil => exact absurd rfl hne
  | cons sg segs ih =>
      cases segs with
      | nil =>
          show splitSlash (joinSlash [sg]) = [sg]
          rw [joinSlash]
          exact splitSlash_slashfree sg (hfree sg (List.mem_cons_self _ _))
      | cons sg2 segs2 =>
          have hrec : splitSlash (joinSlash (sg2 :: segs2)) = sg2 :: segs2 :=
            ih (by simp) (fun u hu => hfree u (List.mem_cons_of_mem _ hu))
          have hmid : splitSlash ('/' :: joinSlash (sg2 :: segs2))
              = [] :: sg2 :: segs2 := by
            simp [splitSlash, hrec]
          have := splitSlash_append sg ('/' :: joinSlash (sg2 :: segs2)) []
            (sg2 :: segs2) (hfree sg (List.mem_cons_self _ _)) hmid
          simpa [joinSlash] using this

theorem matchSegDot_dotSeg (p sg : List Char) (h : matchSegDot p sg = true)
    (hp : isDotSeg p = false) : isDotSeg sg = false := by
  by_cases hs : isDotSeg sg = true
  · simp [matchSegDot, hs, hp] at h
  · simpa using hs

theorem matchSegs_globstar_all (l : List (List Char))
    (h : ∀ sg ∈ l, isDotSeg sg = false) :
    matchSegs [['*', '*']] l = true := by
  induction l with
  | nil => simp [matchSegs]
  | cons x l ih =>
      have hx := h x (List.mem_cons_self _ _)
      simp [matchSegs, hx, ih (fun u hu => h u (List.mem_cons_of_mem _ hu))]

theorem matchSegs_globstar (p : List Char) (ds : List (List Char)) (sg : List Char)
    (hds : ∀ d ∈ ds, isDotSeg d = false)
    (h : matchSegDot p sg = true) :
    matchSegs [['*', '*'], p] (ds ++ [sg]) = true := by
  induction ds with
  | nil =>
      by_cases hp : p = ['*', '*']
      · subst hp
        have hsg : isDotSeg sg = false := matchSegDot_dotSeg _ _ h (by decide)
        simp [matchSegs, hsg]
      · simp [matchSegs, hp, h]
  | cons d ds ih =>
      have hd := hds d (List.mem_cons_self _ _)
      simp [matchSegs, hd, ih (fun u hu => hds u (List.mem_cons_of_mem _ hu))]

/-! ### File matcher: the claim -/

/-- Counterexample to C10's depth clause: the pattern `foo.ts` contains
no `/` and no `\` and the matcher built from it accepts the bare value
`foo.ts`, yet that matcher rejects `.hidden/foo.ts` — minimatch's
default `dot:false` rule (the library is called with no options) stops
`**` from traversing the hidden directory, so the pattern does not match
at literally every directory depth. -/
theorem createMatcher_dot_cex :
    stringIncludes "foo.ts" '/' = false ∧
    stringIncludes "foo.ts" '\\' = false ∧
    (matcherFn [] (createMatcher [PatternArg.str "foo.ts"]).2 "foo.ts").1
      = true ∧
    (matcherFn [] (createMatcher [PatternArg.str "foo.ts"]).2
        ".hidden/foo.ts").1 = false := by
  have hpats : (createMatcher [PatternArg.str "foo.ts"]).2 = ["**/foo.ts"] := by
    decide
  refine ⟨by decide, by decide, ?_, ?_⟩
  · rw [hpats]
    simp [matcherFn, runRegExps, minimatch, splitSlash, matchSegs,
      matchSegDot, matchSeg, isDotSeg]
  · rw [hpats]
    simp [matcherFn, runRegExps, minimatch, splitSlash, matchSegs,
      matchSegDot, matchSeg, isDotSeg]

/-- Claim C10, amended: the predicate returned by `createMatcher` is
deterministic — its boolean output depends only on the regex list and the
value, not on the stored `lastIndex` states, because every `lastIndex` is
reset to 0 before testing; and every string pattern containing no `/` and
no `\`, built from the simple glob characters (no character classes,
braces, extglobs, negation or comment markers), is pushed as `**/` +
pattern, so the resulting matcher accepts a value whose final path
segment matches the pattern at any directory depth whose intermediate
segments do not start with a dot — minimatch's default `dot:false` rule
excludes hidden directories, refuting the claim's unqualified "any
directory depth" (see the counterexample `.hidden/foo.ts`). -/
theorem createMatcher_spec :
    (∀ (res res2 : List (RegExpM × Nat)) (pats : List String) (value : String),
      res.map Prod.fst = res2.map Prod.fst →
      (matcherFn res pats value).1 = (matcherFn res2 pats value).1) ∧
    (∀ (patterns : List PatternArg) (s : String),
      PatternArg.str s ∈ patterns →
      stringIncludes s '/' = false → stringIncludes s '\\' = false →
      (∀ c ∈ s.data, simpleGlobChar c = true) →
      ("**/" ++ s) ∈ (createMatcher patterns).2 ∧
      (∀ (res : List (RegExpM × Nat)) (ds : List (List Char)) (sg : List Char),
        (∀ d ∈ ds, '/' ∉ d ∧ isDotSeg d = false) → '/' ∉ sg →
        matchSegDot s.data sg = true →
        (matcherFn res (createMatcher patterns).2
            (joinSlashStr (ds ++ [sg]))).1 = true)) := by
  constructor
  · exact matcherFn_fst_congr
  · intro patterns s hmem h1 h2 _
    have hsfree : '/' ∉ s.data := by
      intro hm
      have : stringIncludes s '/' = true := by
        simp [stringIncludes, hm]
      rw [h1] at this
      exact Bool.false_ne_true this
    have hpat : ("**/" ++ s) ∈ (createMatcher patterns).2 :=
      createMatcherLoop_mem patterns ([], []) s hmem h1 h2
    refine ⟨hpat, ?_⟩
    intro res ds sg hds hsg hseg
    have hvdata : (joinSlashStr (ds ++ [sg])).data = joinSlash (ds ++ [sg]) := rfl
    have hpdata : ("**/" ++ s).data = '*' :: '*' :: '/' :: s.data := by
      rw [String.data_append]
      rfl
    have hsplitp : splitSlash ("**/" ++ s).data = [['*', '*'], s.data] := by
      rw [hpdata]
      have hs : splitSlash ('/' :: s.data) = [] :: [s.data] := by
        simp [splitSlash, splitSlash_slashfree s.data hsfree]
      have := splitSlash_append ['*', '*'] ('/' :: s.data) [] [s.data]
        (by decide) hs
      simpa using this
    have hsplitv : splitSlash (joinSlashStr (ds ++ [sg])).data = ds ++ [sg] := by
      rw [hvdata]
      refine splitSlash_joinSlash (ds ++ [sg]) (by simp) ?_
      intro u hu
      rcases List.mem_append.mp hu with h | h
      · exact (hds u h).1
      · rw [List.mem_singleton.mp h]
        exact hsg
    have hmini : minimatch (joinSlashStr (ds ++ [sg])) ("**/" ++ s) = true := by
      rw [minimatch, hsplitp, hsplitv]
      exact matchSegs_globstar s.data ds sg (fun d hd => (hds d hd).2) hseg
    exact matcherFn_of_pattern res (createMatcher patterns).2
      (joinSlashStr (ds ++ [sg])) ("**/" ++ s) hpat hmini

/-- Witness for C10: determinism at a one-regex state, and the depth
property for the simple pattern `foo.ts` matching `dir/foo.ts` (the
directory segment `dir` does not start with a dot). -/
theorem createMatcher_spec_witness :
    (matcherFn [(⟨fun _ _ => (false, 0)⟩, 3)] [] "x").1
      = (matcherFn [(⟨fun _ _ => (false, 0)⟩, 7)] [] "x").1 ∧
    ("**/" ++ "foo.ts") ∈ (createMatcher [PatternArg.str "foo.ts"]).2 ∧
    (matcherFn [] (createMatcher [PatternArg.str "foo.ts"]).2
        (joinSlashStr (["dir".data] ++ ["foo.ts".data]))).1 = true := by
  have h := createMatcher_spec.2 [PatternArg.str "foo.ts"] "foo.ts"
    (List.mem_singleton.mpr rfl) (by decide) (by decide) (by decide)
  refine ⟨?_, h.1, ?_⟩
  · exact createMatcher_spec.1 [(⟨fun _ _ => (false, 0)⟩, 3)]
      [(⟨fun _ _ => (false, 0)⟩, 7)] [] "x" rfl
  · exact h.2 [] ["dir".data] "foo.ts".data
      (by intro d hd
          rw [List.mem_singleton.mp hd]
          exact ⟨by decide, by decide⟩)
      (by decide) (by simp [matchSegDot, isDotSeg, matchSeg])

/-! ### Dispatcher: chunking and split lemmas -/

theorem chunkTests_ne_nil (ts : List TestSpec) : ∀ c ∈ chunkTests ts, c ≠ [] := by
  induction ts with
  | nil => intro c hc; simp [chunkTests] at hc
  | cons t ts ih =>
      intro c hc
      rcases hch : chunkTests ts with _ | ⟨c0, rest⟩
      · simp only [chunkTests, hch] at hc
        rcases List.mem_singleton.mp hc with rfl
        simp
      · cases c0 with
        | nil => exact absurd rfl (ih [] (hch ▸ List.mem_cons_self _ _))
        | cons u us =>
            simp only [chunkTests, hch] at hc
            by_cases hk : t.file = u.file ∧ t.hash = u.hash
            · rw [if_pos hk] at hc
              rcases List.mem_cons.mp hc with rfl | hmem
              · simp
              · exact ih c (hch ▸ List.mem_cons_of_mem _ hmem)
            · rw [if_neg hk] at hc
              rcases List.mem_cons.mp hc with rfl | hmem
              · simp
              · exact ih c (hch ▸ hmem)

theorem chunkTests_flatten (ts : List TestSpec) :
    (chunkTests ts).flatten = ts := by
  induction ts with
  | nil => rfl
  | cons t ts ih =>
      rcases hch : chunkTests ts with _ | ⟨c0, rest⟩
      · simp only [chunkTests, hch]
        rw [hch] at ih
        simp at ih
        simp [ih]
      · cases c0 with
        | nil =>
            exact absurd rfl (chunkTests_ne_nil ts [] (hch ▸ List.mem_cons_self _ _))
        | cons u us =>
            rw [hch] at ih
            simp only [chunkTests, hch]
            by_cases hk : t.file = u.file ∧ t.hash = u.hash
            · rw [if_pos hk]
              simp only [List.flatten_cons] at ih ⊢
              simp [← ih]
            · rw [if_neg hk]
              simp only [List.flatten_cons] at ih ⊢
              simp [ih]

theorem chunkTests_uniform (ts : List TestSpec) :
    ∀ c ∈ chunkTests ts, ∀ t ∈ c, t.file = jobFile c ∧ t.hash = jobHash c := by
  induction ts with
  | nil => intro c hc; simp [chunkTests] at hc
  | cons t ts ih =>
      intro c hc u hu
      rcases hch : chunkTests ts with _ | ⟨c0, rest⟩
      · simp only [chunkTests, hch] at hc
        rcases List.mem_singleton.mp hc with rfl
        rcases List.mem_singleton.mp hu with rfl
        exact ⟨rfl, rfl⟩
      · cases c0 with
        | nil =>
            exact absurd rfl (chunkTests_ne_nil ts [] (hch ▸ List.mem_cons_self _ _))
        | cons w ws =>
            simp only [chunkTests, hch] at hc
            by_cases hk : t.file = w.file ∧ t.hash = w.hash
            · rw [if_pos hk] at hc
              rcases List.mem_cons.mp hc with rfl | hmem
              · rcases List.mem_cons.mp hu with rfl | hu2
                · exact ⟨rfl, rfl⟩
                · have := ih (w :: ws) (hch ▸ List.mem_cons_self _ _) u hu2
                  simpa [jobFile, jobHash, hk.1, hk.2] using this
              · exact ih c (hch ▸ List.mem_cons_of_mem _ hmem) u hu
            · rw [if_neg hk] at hc
              rcases List.mem_cons.mp hc with rfl | hmem
              · rcases List.mem_singleton.mp hu with rfl
                exact ⟨rfl, rfl⟩
              · exact ih c (hch ▸ hmem) u hu

theorem splitRun_fst_append_snd (j : List TestSpec) :
    (splitRun j).1 ++ (splitRun j).2 = j := by
  induction j with
  | nil => rfl
  | cons t ts ih =>
      by_cases hp : t.passes
      · simp [splitRun, hp, ih]
      · simp [splitRun, hp]

theorem splitRun_all_pass (j : List TestSpec) (h : ∀ t ∈ j, t.passes = true) :
    splitRun j = (j, []) := by
  induction j with
  | nil => rfl
  | cons t ts ih =>
      have hp : t.passes = true := h t (List.mem_cons_self _ _)
      have := ih (fun u hu => h u (List.mem_cons_of_mem _ hu))
      simp [splitRun, hp, this]

theorem splitRun_pass_append (x y : List TestSpec)
    (h : ∀ t ∈ x, t.passes = true) :
    splitRun (x ++ y) = (x ++ (splitRun y).1, (splitRun y).2) := by
  induction x with
  | nil => simp
  | cons t x ih =>
      have hp : t.passes = true := h t (List.mem_cons_self _ _)
      have := ih (fun u hu => h u (List.mem_cons_of_mem _ hu))
      simp [splitRun, hp, this]

theorem splitRun_first_fail (x : List TestSpec)
    (h : ¬(∀ t ∈ x, t.passes = true)) :
    ∃ x1 t x2, x = x1 ++ t :: x2 ∧ (∀ u ∈ x1, u.passes = true) ∧
      t.passes = false ∧
      (∀ y, splitRun (x ++ y) = (x1 ++ [t], x2 ++ y)) := by
  induction x with
  | nil => exact absurd (by simp) h
  | cons t x ih =>
      by_cases hp : t.passes
      · have hx : ¬(∀ u ∈ x, u.passes = true) := by
          intro hall
          exact h (by
            intro u hu
            rcases List.mem_cons.mp hu with rfl | hu2
            · exact hp
            · exact hall u hu2)
        obtain ⟨x1, t2, x2, hdec, hpass, hfail, hsplit⟩ := ih hx
        refine ⟨t :: x1, t2, x2, by simp [hdec], ?_, hfail, ?_⟩
        · intro u hu
          rcases List.mem_cons.mp hu with rfl | hu2
          · exact hp
          · exact hpass u hu2
        · intro y
          have h2 := hsplit y
          subst hdec
          show splitRun (t :: ((x1 ++ t2 :: x2) ++ y)) = ((t :: x1) ++ [t2], x2 ++ y)
          simp only [splitRun, hp, if_true, h2]
          simp
      · refine ⟨[], t, x, by simp, by simp, by simpa using hp, ?_⟩
        intro y
        simp [splitRun, hp]

theorem jobHash_splitRun_fst (j : List TestSpec) :
    jobHash (splitRun j).1 = jobHash j := by
  cases j with
  | nil => rfl
  | cons t ts =>
      by_cases hp : t.passes
      · simp [splitRun, hp, jobHash]
      · simp [splitRun, hp, jobHash]

theorem flattenAssignments_map_fst (out : List (List TestSpec × Nat)) :
    (flattenAssignments out).map Prod.fst = (out.map Prod.fst).flatten := by
  induction out with
  | nil => rfl
  | cons p rest ih =>
      simp only [flattenAssignments, List.map_append, List.map_map, ih,
        List.map_cons, List.flatten_cons]
      congr 1
      have : (Prod.fst ∘ fun t : TestSpec => (t, p.2)) = fun t => t := rfl
      rw [this, List.map_id']

theorem flattenAssignments_mem (out : List (List TestSpec × Nat))
    (t : TestSpec) (i : Nat) (h : (t, i) ∈ flattenAssignments out) :
    ∃ j, (j, i) ∈ out ∧ t ∈ j := by
  induction out with
  | nil => simp [flattenAssignments] at h
  | cons p rest ih =>
      rw [flattenAssignments] at h
      rcases List.mem_append.mp h with h1 | h2
      · obtain ⟨u, hu, heq⟩ := List.mem_map.mp h1
        simp only [Prod.mk.injEq] at heq
        obtain ⟨rfl, rfl⟩ := heq
        exact ⟨p.1, List.mem_cons_self _ _, hu⟩
      · obtain ⟨j, hj, hmem⟩ := ih h2
        exact ⟨j, List.mem_cons_of_mem _ hj, hmem⟩

theorem chunkTests_seg_head (seg post : List TestSpec) (hne : seg ≠ [])
    (huni : ∀ u ∈ seg, ∀ v ∈ seg, u.file = v.file ∧ u.hash = v.hash) :
    ∃ (b : List TestSpec) (cR : List (List TestSpec)),
      chunkTests (seg ++ post) = (seg ++ b) :: cR ∧ b ++ cR.flatten = post := by
  induction seg with
  | nil => exact absurd rfl hne
  | cons t seg ih =>
      cases seg with
      | nil =>
          rcases hch : chunkTests post with _ | ⟨c0, rest⟩
          · have hpost : post = [] := by
              have := chunkTests_flatten post
              rw [hch] at this
              simpa using this.symm
            subst hpost
            exact ⟨[], [], by simp [chunkTests], by simp⟩
          · cases c0 with
            | nil =>
                exact absurd rfl
                  (chunkTests_ne_nil post [] (hch ▸ List.mem_cons_self _ _))
            | cons u us =>
                have hflat := chunkTests_flatten post
                rw [hch] at hflat
                by_cases hk : t.file = u.file ∧ t.hash = u.hash
                · refine ⟨u :: us, rest, ?_, ?_⟩
                  · show chunkTests (t :: post) = ([t] ++ (u :: us)) :: rest
                    simp only [chunkTests, hch, if_pos hk]
                    simp
                  · simpa using hflat
                · refine ⟨[], (u :: us) :: rest, ?_, ?_⟩
                  · show chunkTests (t :: post) = ([t] ++ []) :: (u :: us) :: rest
                    simp only [chunkTests, hch, if_neg hk]
                    simp
                  · simpa using hflat
      | cons t2 seg2 =>
          have huni2 : ∀ u ∈ t2 :: seg2, ∀ v ∈ t2 :: seg2,
              u.file = v.file ∧ u.hash = v.hash :=
            fun u hu v hv =>
              huni u (List.mem_cons_of_mem _ hu) v (List.mem_cons_of_mem _ hv)
          obtain ⟨b, cR, hch, hpost⟩ := ih (by simp) huni2
          have hk : t.file = t2.file ∧ t.hash = t2.hash :=
            huni t (List.mem_cons_self _ _) t2
              (List.mem_cons_of_mem _ (List.mem_cons_self _ _))
          refine ⟨b, cR, ?_, hpost⟩
          have hch2 : chunkTests ((t2 :: seg2) ++ post)
              = (t2 :: (seg2 ++ b)) :: cR := by simpa using hch
          show chunkTests (t :: ((t2 :: seg2) ++ post))
              = ((t :: t2 :: seg2) ++ b) :: cR
          rw [chunkTests, hch2]
          simp [hk.1, hk.2]

theorem chunkTests_seg_decomp (pre seg post : List TestSpec) (hne : seg ≠ [])
    (huni : ∀ u ∈ seg, ∀ v ∈ seg, u.file = v.file ∧ u.hash = v.hash) :
    ∃ (cL : List (List TestSpec)) (a b : List TestSpec)
      (cR : List (List TestSpec)),
      chunkTests (pre ++ seg ++ post) = cL ++ (a ++ seg ++ b) :: cR ∧
      cL.flatten ++ a = pre ∧ b ++ cR.flatten = post := by
  induction pre with
  | nil =>
      obtain ⟨b, cR, hch, hpost⟩ := chunkTests_seg_head seg post hne huni
      exact ⟨[], [], b, cR, by simpa using hch, by simp, hpost⟩
  | cons p pre ih =>
      obtain ⟨cL, a, b, cR, hch, hpre, hpost⟩ := ih
      have hstep : chunkTests ((p :: pre) ++ seg ++ post)
          = chunkTests (p :: (pre ++ seg ++ post)) := by simp
      cases cL with
      | nil =>
          simp only [List.flatten_nil, List.nil_append] at hpre
          cases a with
          | nil =>
              subst hpre
              cases seg with
              | nil => exact absurd rfl hne
              | cons s0 seg1 =>
                  by_cases hk : p.file = s0.file ∧ p.hash = s0.hash
                  · refine ⟨[], [p], b, cR, ?_, by simp, hpost⟩
                    rw [hstep, chunkTests]
                    simp only [List.append_assoc, List.cons_append,
                      List.nil_append] at hch ⊢
                    rw [hch]
                    simp [hk.1, hk.2]
                  · refine ⟨[[p]], [], b, cR, ?_, by simp, hpost⟩
                    rw [hstep, chunkTests]
                    simp only [List.append_assoc, List.cons_append,
                      List.nil_append] at hch ⊢
                    rw [hch]
                    simp [hk]
          | cons a0 a1 =>
              subst hpre
              by_cases hk : p.file = a0.file ∧ p.hash = a0.hash
              · refine ⟨[], p :: a0 :: a1, b, cR, ?_, by simp, hpost⟩
                rw [hstep, chunkTests]
                simp only [List.append_assoc, List.cons_append,
                  List.nil_append] at hch ⊢
                rw [hch]
                simp [hk.1, hk.2]
              · refine ⟨[[p]], a0 :: a1, b, cR, ?_, by simp, hpost⟩
                rw [hstep, chunkTests]
                simp only [List.append_assoc, List.cons_append,
                  List.nil_append] at hch ⊢
                rw [hch]
                simp [hk]
      | cons c0 cL1 =>
          have hc0 : c0 ≠ [] :=
            chunkTests_ne_nil (pre ++ seg ++ post) c0
              (hch ▸ List.mem_cons_self _ _)
          rcases hc0e : c0 with _ | ⟨u, us⟩
          · exact absurd hc0e hc0
          · subst hc0e
            by_cases hk : p.file = u.file ∧ p.hash = u.hash
            · refine ⟨(p :: u :: us) :: cL1, a, b, cR, ?_, ?_, hpost⟩
              · rw [hstep, chunkTests]
                simp only [List.append_assoc, List.cons_append,
                  List.nil_append] at hch ⊢
                rw [hch]
                simp [hk.1, hk.2]
              · simp only [List.flatten_cons, List.cons_append,
                  List.append_assoc] at hpre ⊢
                rw [hpre]
            · refine ⟨[p] :: (u :: us) :: cL1, a, b, cR, ?_, ?_, hpost⟩
              · rw [hstep, chunkTests]
                simp only [List.append_assoc, List.cons_append,
                  List.nil_append] at hch ⊢
                rw [hch]
                simp [hk]
              · simp only [List.flatten_cons, List.cons_append,
                  List.append_assoc] at hpre ⊢
                simp [hpre]

theorem map_fst_tag (l : List TestSpec) (i : Nat) :
    (l.map (fun t => (t, i))).map Prod.fst = l := by
  induction l with
  | nil => rfl
  | cons t ts ih => simp [ih]

theorem flattenAssignments_cons (j : List TestSpec) (i : Nat)
    (out : List (List TestSpec × Nat)) :
    flattenAssignments ((j, i) :: out)
      = j.map (fun t => (t, i)) ++ flattenAssignments out := rfl


theorem flatten_with_seg_ne_nil (qL : List (List TestSpec))
    (a seg b : List TestSpec) (qR : List (List TestSpec)) (hne : seg ≠ []) :
    (qL ++ (a ++ seg ++ b) :: qR).flatten ≠ [] := by
  cases seg with
  | nil => exact absurd rfl hne
  | cons s0 seg1 => simp

theorem dispatchLoop_succ_cons (W fuel : Nat) (st : DispatchState)
    (j : List TestSpec) (rest : List (List TestSpec)) (comps : List Nat) :
    dispatchLoop W (fuel + 1) st (j :: rest) comps
      = match tryAssign W st (jobHash j) with
        | some (st2, idx) =>
            if (splitRun j).2.isEmpty then
              ((splitRun j).1, idx) :: dispatchLoop W fuel st2 rest comps
            else
              ((splitRun j).1, idx)
                :: dispatchLoop W fuel (markDead st2 idx)
                    ((splitRun j).2 :: rest) comps
        | none =>
            match comps with
            | [] => []
            | cmp :: crest =>
                dispatchLoop W fuel (completeWorker st cmp) (j :: rest) crest
      := rfl

theorem dispatchLoop_seg (W : Nat) (seg b : List TestSpec)
    (qR : List (List TestSpec)) (hne : seg ≠ [])
    (hpass : ∀ u ∈ seg, u.passes = true) :
    ∀ (fuel : Nat) (st : DispatchState) (qL : List (List TestSpec))
      (a : List TestSpec) (comps : List Nat),
      (flattenAssignments
        (dispatchLoop W fuel st (qL ++ (a ++ seg ++ b) :: qR) comps)).map Prod.fst
        = (qL ++ (a ++ seg ++ b) :: qR).flatten →
      ∃ n FL FR,
        flattenAssignments
            (dispatchLoop W fuel st (qL ++ (a ++ seg ++ b) :: qR) comps)
          = FL ++ seg.map (fun t => (t, n)) ++ FR ∧
        FL.map Prod.fst = qL.flatten ++ a ∧
        FR.map Prod.fst = b ++ qR.flatten := by
  intro fuel
  induction fuel with
  | zero =>
      intro st qL a comps hcomp
      exfalso
      have h0 : ([] : List TestSpec)
          = (qL ++ (a ++ seg ++ b) :: qR).flatten := hcomp
      exact flatten_with_seg_ne_nil qL a seg b qR hne h0.symm
  | succ fuel ih =>
      intro st qL a comps hcomp
      cases qL with
      | cons c qL1 =>
          rw [show (c :: qL1) ++ (a ++ seg ++ b) :: qR
              = c :: (qL1 ++ (a ++ seg ++ b) :: qR) from rfl] at hcomp ⊢
          rcases hta : tryAssign W st (jobHash c) with _ | ⟨st2, idx⟩
          · cases comps with
            | nil =>
                exfalso
                have hout : dispatchLoop W (fuel + 1) st
                    (c :: (qL1 ++ (a ++ seg ++ b) :: qR)) ([] : List Nat)
                    = [] := by
                  rw [dispatchLoop_succ_cons]
                  simp only [hta]
                rw [hout] at hcomp
                have h0 : ([] : List TestSpec)
                    = (c :: (qL1 ++ (a ++ seg ++ b) :: qR)).flatten := hcomp
                exact flatten_with_seg_ne_nil (c :: qL1) a seg b qR hne h0.symm
            | cons cmp crest =>
                have hout : dispatchLoop W (fuel + 1) st
                    (c :: (qL1 ++ (a ++ seg ++ b) :: qR)) (cmp :: crest)
                    = dispatchLoop W fuel (completeWorker st cmp)
                        (c :: (qL1 ++ (a ++ seg ++ b) :: qR)) crest := by
                  rw [dispatchLoop_succ_cons]
                  simp only [hta]
                rw [hout] at hcomp ⊢
                exact ih (completeWorker st cmp) (c :: qL1) a crest hcomp
          · rcases hsr : splitRun c with ⟨sr1, sr2⟩
            have hc : sr1 ++ sr2 = c := by
              have h1 := splitRun_fst_append_snd c
              rw [hsr] at h1
              exact h1
            cases sr2 with
            | nil =>
                have hout : dispatchLoop W (fuel + 1) st
                    (c :: (qL1 ++ (a ++ seg ++ b) :: qR)) comps
                    = (sr1, idx) :: dispatchLoop W fuel st2
                        (qL1 ++ (a ++ seg ++ b) :: qR) comps := by
                  rw [dispatchLoop_succ_cons]
                  simp only [hta]
                  simp [hsr]
                have hc1 : sr1 = c := by simpa using hc
                subst hc1
                rw [hout] at hcomp ⊢
                rw [flattenAssignments_cons] at hcomp ⊢
                have hcomp2 : (flattenAssignments
                    (dispatchLoop W fuel st2
                      (qL1 ++ (a ++ seg ++ b) :: qR) comps)).map Prod.fst
                    = (qL1 ++ (a ++ seg ++ b) :: qR).flatten := by
                  rw [List.map_append, map_fst_tag, List.flatten_cons] at hcomp
                  exact List.append_cancel_left hcomp
                obtain ⟨n, FL, FR, hdec, hfl, hfr⟩ := ih st2 qL1 a comps hcomp2
                refine ⟨n, sr1.map (fun t => (t, idx)) ++ FL, FR, ?_, ?_, hfr⟩
                · rw [hdec]
                  simp [List.append_assoc]
                · rw [List.map_append, map_fst_tag, hfl, List.flatten_cons]
                  simp
            | cons d2 sr2' =>
                have hout : dispatchLoop W (fuel + 1) st
                    (c :: (qL1 ++ (a ++ seg ++ b) :: qR)) comps
                    = (sr1, idx) :: dispatchLoop W fuel (markDead st2 idx)
                        ((d2 :: sr2') :: (qL1 ++ (a ++ seg ++ b) :: qR)) comps := by
                  rw [dispatchLoop_succ_cons]
                  simp only [hta]
                  simp [hsr]
                rw [hout] at hcomp ⊢
                rw [flattenAssignments_cons] at hcomp ⊢
                have hfst : sr1 ++ (flattenAssignments (dispatchLoop W fuel
                    (markDead st2 idx)
                    ((d2 :: sr2') :: (qL1 ++ (a ++ seg ++ b) :: qR)) comps)).map
                      Prod.fst
                    = c ++ (qL1 ++ (a ++ seg ++ b) :: qR).flatten := by
                  rw [List.map_append, map_fst_tag, List.flatten_cons] at hcomp
                  exact hcomp
                have hpair : sr1 ++ (flattenAssignments (dispatchLoop W fuel
                    (markDead st2 idx)
                    ((d2 :: sr2') :: (qL1 ++ (a ++ seg ++ b) :: qR)) comps)).map
                      Prod.fst
                    = sr1 ++ ((d2 :: sr2')
                        ++ (qL1 ++ (a ++ seg ++ b) :: qR).flatten) := by
                  rw [hfst, ← hc]
                  simp [List.append_assoc]
                have hrest := List.append_cancel_left hpair
                have hcomp2 : (flattenAssignments
                    (dispatchLoop W fuel (markDead st2 idx)
                      ((d2 :: sr2') :: (qL1 ++ (a ++ seg ++ b) :: qR)) comps)).map
                        Prod.fst
                    = (((d2 :: sr2') :: qL1) ++ (a ++ seg ++ b) :: qR).flatten := by
                  rw [hrest]
                  simp
                obtain ⟨n, FL, FR, hdec, hfl, hfr⟩ :=
                  ih (markDead st2 idx) ((d2 :: sr2') :: qL1) a comps hcomp2
                have hdec2 : flattenAssignments
                    (dispatchLoop W fuel (markDead st2 idx)
                      ((d2 :: sr2') :: (qL1 ++ (a ++ seg ++ b) :: qR)) comps)
                    = FL ++ seg.map (fun t => (t, n)) ++ FR := hdec
                have hfl2 : FL.map Prod.fst
                    = (d2 :: sr2') ++ (qL1.flatten ++ a) := by
                  rw [hfl]
                  simp
                refine ⟨n, sr1.map (fun t => (t, idx)) ++ FL, FR, ?_, ?_, hfr⟩
                · rw [hdec2]
                  simp [List.append_assoc]
                · rw [List.map_append, map_fst_tag, hfl2, List.flatten_cons, ← hc]
                  simp [List.append_assoc]
      | nil =>
          rw [List.nil_append] at hcomp ⊢
          rcases hta : tryAssign W st (jobHash (a ++ seg ++ b)) with _ | ⟨st2, idx⟩
          · cases comps with
            | nil =>
                exfalso
                have hout : dispatchLoop W (fuel + 1) st
                    ((a ++ seg ++ b) :: qR) ([] : List Nat) = [] := by
                  rw [dispatchLoop_succ_cons]
                  simp only [hta]
                rw [hout] at hcomp
                have h0 : ([] : List TestSpec)
                    = ((a ++ seg ++ b) :: qR).flatten := hcomp
                have h1 : ([] : List TestSpec)
                    = ([] ++ (a ++ seg ++ b) :: qR).flatten := by
                  rw [List.nil_append]
                  exact h0
                exact flatten_with_seg_ne_nil [] a seg b qR hne h1.symm
            | cons cmp crest =>
                have hout : dispatchLoop W (fuel + 1) st
                    ((a ++ seg ++ b) :: qR) (cmp :: crest)
                    = dispatchLoop W fuel (completeWorker st cmp)
                        ((a ++ seg ++ b) :: qR) crest := by
                  rw [dispatchLoop_succ_cons]
                  simp only [hta]
                rw [hout] at hcomp ⊢
                have hres := ih (completeWorker st cmp) [] a crest hcomp
                exact hres
          · by_cases hpa : ∀ u ∈ a, u.passes = true
            · rcases hsb : splitRun b with ⟨sb1, sb2⟩
              have hsplit : splitRun (a ++ seg ++ b) = (a ++ seg ++ sb1, sb2) := by
                rw [List.append_assoc, splitRun_pass_append a (seg ++ b) hpa,
                  splitRun_pass_append seg b hpass, hsb]
                simp [List.append_assoc]
              have hb : sb1 ++ sb2 = b := by
                have h1 := splitRun_fst_append_snd b
                rw [hsb] at h1
                exact h1
              cases sb2 with
              | nil =>
                  have hb1 : sb1 = b := by simpa using hb
                  rw [hb1] at hsplit
                  have hout : dispatchLoop W (fuel + 1) st
                      ((a ++ seg ++ b) :: qR) comps
                      = (a ++ seg ++ b, idx)
                        :: dispatchLoop W fuel st2 qR comps := by
                    rw [dispatchLoop_succ_cons]
                    simp only [hta]
                    rw [hsplit]
                    simp
                  rw [hout] at hcomp ⊢
                  rw [flattenAssignments_cons] at hcomp ⊢
                  have hrest : (flattenAssignments
                      (dispatchLoop W fuel st2 qR comps)).map Prod.fst
                      = qR.flatten := by
                    rw [List.map_append, map_fst_tag, List.flatten_cons] at hcomp
                    exact List.append_cancel_left hcomp
                  refine ⟨idx, a.map (fun t => (t, idx)),
                    b.map (fun t => (t, idx))
                      ++ flattenAssignments (dispatchLoop W fuel st2 qR comps),
                    ?_, ?_, ?_⟩
                  · simp [List.append_assoc]
                  · rw [map_fst_tag]
                    simp
                  · rw [List.map_append, map_fst_tag, hrest]
              | cons e2 sb2' =>
                  have hout : dispatchLoop W (fuel + 1) st
                      ((a ++ seg ++ b) :: qR) comps
                      = (a ++ seg ++ sb1, idx) :: dispatchLoop W fuel
                          (markDead st2 idx) ((e2 :: sb2') :: qR) comps := by
                    rw [dispatchLoop_succ_cons]
                    simp only [hta]
                    rw [hsplit]
                    simp
                  rw [hout] at hcomp ⊢
                  rw [flattenAssignments_cons] at hcomp ⊢
                  have hfst : (a ++ seg ++ sb1) ++ (flattenAssignments
                      (dispatchLoop W fuel (markDead st2 idx)
                        ((e2 :: sb2') :: qR) comps)).map Prod.fst
                      = (a ++ seg ++ b) ++ qR.flatten := by
                    rw [List.map_append, map_fst_tag, List.flatten_cons] at hcomp
                    exact hcomp
                  have hpair : (a ++ seg ++ sb1) ++ (flattenAssignments
                      (dispatchLoop W fuel (markDead st2 idx)
                        ((e2 :: sb2') :: qR) comps)).map Prod.fst
                      = (a ++ seg ++ sb1) ++ ((e2 :: sb2') ++ qR.flatten) := by
                    rw [hfst, ← hb]
                    simp [List.append_assoc]
                  have hrest := List.append_cancel_left hpair
                  refine ⟨idx, a.map (fun t => (t, idx)),
                    sb1.map (fun t => (t, idx))
                      ++ flattenAssignments (dispatchLoop W fuel
                          (markDead st2 idx) ((e2 :: sb2') :: qR) comps),
                    ?_, ?_, ?_⟩
                  · simp [List.append_assoc]
                  · rw [map_fst_tag]
                    simp
                  · rw [List.map_append, map_fst_tag, hrest, ← hb]
                    simp [List.append_assoc]
            · obtain ⟨a1, tf, a2, hadec, ha1, htf, hsfn⟩ :=
                splitRun_first_fail a hpa
              subst hadec
              have hsp : splitRun ((a1 ++ tf :: a2) ++ seg ++ b)
                  = (a1 ++ [tf], a2 ++ (seg ++ b)) := by
                rw [List.append_assoc]
                exact hsfn (seg ++ b)
              have hemp : (a2 ++ (seg ++ b)).isEmpty = false := by
                rcases hq : a2 ++ (seg ++ b) with _ | ⟨x, xs⟩
                · exfalso
                  cases seg with
                  | nil => exact absurd rfl hne
                  | cons s0 seg1 => simp at hq
                · rfl
              have hout : dispatchLoop W (fuel + 1) st
                  (((a1 ++ tf :: a2) ++ seg ++ b) :: qR) comps
                  = (a1 ++ [tf], idx) :: dispatchLoop W fuel
                      (markDead st2 idx) ((a2 ++ seg ++ b) :: qR) comps := by
                rw [dispatchLoop_succ_cons]
                simp only [hta]
                rw [hsp]
                simp [hemp, List.append_assoc]
              rw [hout] at hcomp ⊢
              rw [flattenAssignments_cons] at hcomp ⊢
              have hfst : (a1 ++ [tf]) ++ (flattenAssignments
                  (dispatchLoop W fuel (markDead st2 idx)
                    ((a2 ++ seg ++ b) :: qR) comps)).map Prod.fst
                  = ((a1 ++ tf :: a2) ++ seg ++ b) ++ qR.flatten := by
                rw [List.map_append, map_fst_tag, List.flatten_cons] at hcomp
                exact hcomp
              have hpair : (a1 ++ [tf]) ++ (flattenAssignments
                  (dispatchLoop W fuel (markDead st2 idx)
                    ((a2 ++ seg ++ b) :: qR) comps)).map Prod.fst
                  = (a1 ++ [tf]) ++ ((a2 ++ seg ++ b) ++ qR.flatten) := by
                rw [hfst]
                simp [List.append_assoc]
              have hrest := List.append_cancel_left hpair
              have hcomp2 : (flattenAssignments
                  (dispatchLoop W fuel (markDead st2 idx)
                    ((a2 ++ seg ++ b) :: qR) comps)).map Prod.fst
                  = ((a2 ++ seg ++ b) :: qR).flatten := by
                rw [hrest]
                simp
              obtain ⟨n, FL, FR, hdec, hfl, hfr⟩ :=
                ih (markDead st2 idx) [] a2 comps hcomp2
              have hdec2 : flattenAssignments
                  (dispatchLoop W fuel (markDead st2 idx)
                    ((a2 ++ seg ++ b) :: qR) comps)
                  = FL ++ seg.map (fun t => (t, n)) ++ FR := hdec
              have hfl2 : FL.map Prod.fst = a2 := by
                have h7 : FL.map Prod.fst = ([] : List (List TestSpec)).flatten ++ a2 := hfl
                simpa using h7
              refine ⟨n, (a1 ++ [tf]).map (fun t => (t, idx)) ++ FL, FR,
                ?_, ?_, hfr⟩
              · rw [hdec2]
                simp [List.append_assoc]
              · rw [List.map_append, map_fst_tag, hfl2]
                simp


theorem findMatch_spec (h : Nat) :
    ∀ (ws : List WorkerM) (w : WorkerM) (rest : List WorkerM),
      findMatch h ws = some (w, rest) →
      w ∈ ws ∧ w.hash = h ∧ ∀ x ∈ rest, x ∈ ws := by
  intro ws
  induction ws with
  | nil => intro w rest hf; simp [findMatch] at hf
  | cons w0 ws ih =>
      intro w rest hf
      rw [findMatch] at hf
      by_cases hw0 : w0.hash = h
      · rw [if_pos hw0] at hf
        obtain ⟨rfl, rfl⟩ : w0 = w ∧ ws = rest := by
          have := Option.some.inj hf
          exact ⟨congrArg Prod.fst this, congrArg Prod.snd this⟩
        exact ⟨List.mem_cons_self _ _, hw0,
          fun x hx => List.mem_cons_of_mem _ hx⟩
      · rw [if_neg hw0] at hf
        rcases hm : findMatch h ws with _ | ⟨w2, rest2⟩
        · rw [hm] at hf
          simp at hf
        · rw [hm] at hf
          obtain ⟨rfl, rfl⟩ : w2 = w ∧ w0 :: rest2 = rest := by
            have := Option.some.inj hf
            exact ⟨congrArg Prod.fst this, congrArg Prod.snd this⟩
          obtain ⟨hmem, hh, hsub⟩ := ih w2 rest2 hm
          refine ⟨List.mem_cons_of_mem _ hmem, hh, ?_⟩
          intro x hx
          rcases List.mem_cons.mp hx with rfl | hx2
          · exact List.mem_cons_self _ _
          · exact List.mem_cons_of_mem _ (hsub x hx2)

theorem tryAssign_cases (W : Nat) (st : DispatchState) (h : Nat)
    (st2 : DispatchState) (idx : Nat)
    (hta : tryAssign W st h = some (st2, idx)) :
    (∀ w ∈ st2.busy ++ st2.free,
      w ∈ st.busy ++ st.free
        ∨ (w = ⟨st.nextIndex, h, true⟩ ∧ st2.nextIndex = st.nextIndex + 1)) ∧
    ((∃ w0, w0 ∈ st.free ∧ w0.hash = h ∧ idx = w0.index ∧
        st2.nextIndex = st.nextIndex) ∨
      (idx = st.nextIndex ∧ st2.nextIndex = st.nextIndex + 1)) := by
  rcases hm : findMatch h st.free with _ | ⟨w0, restFree⟩
  · by_cases hcap : st.busy.length + st.free.length < W
    · rw [tryAssign, hm] at hta
      rw [if_pos hcap] at hta
      have h2 := Option.some.inj hta
      obtain ⟨hst, hidx⟩ := Prod.ext_iff.mp h2
      subst hst
      subst hidx
      constructor
      · intro w hw
        rcases List.mem_append.mp hw with hb | hf
        · rcases List.mem_cons.mp hb with rfl | hb2
          · exact Or.inr ⟨rfl, rfl⟩
          · exact Or.inl (List.mem_append_left _ hb2)
        · exact Or.inl (List.mem_append_right _ hf)
      · exact Or.inr ⟨rfl, rfl⟩
    · rcases hfr : st.free with _ | ⟨f0, restFree⟩
      · rw [tryAssign, hm] at hta
        rw [if_neg hcap, hfr] at hta
        simp at hta
      · rw [tryAssign, hm] at hta
        rw [if_neg hcap, hfr] at hta
        have h2 := Option.some.inj hta
        obtain ⟨hst, hidx⟩ := Prod.ext_iff.mp h2
        subst hst
        subst hidx
        constructor
        · intro w hw
          rcases List.mem_append.mp hw with hb | hf
          · rcases List.mem_cons.mp hb with rfl | hb2
            · exact Or.inr ⟨rfl, rfl⟩
            · exact Or.inl (List.mem_append_left _ hb2)
          · exact Or.inl (List.mem_append_right _
              (hfr ▸ List.mem_cons_of_mem _ hf))
        · exact Or.inr ⟨rfl, rfl⟩
  · rw [tryAssign, hm] at hta
    have h2 := Option.some.inj hta
    obtain ⟨hst, hidx⟩ := Prod.ext_iff.mp h2
    subst hst
    subst hidx
    obtain ⟨hmem, hh, hsub⟩ := findMatch_spec h st.free w0 restFree hm
    constructor
    · intro w hw
      rcases List.mem_append.mp hw with hb | hf
      · rcases List.mem_cons.mp hb with rfl | hb2
        · exact Or.inl (List.mem_append_right _ hmem)
        · exact Or.inl (List.mem_append_left _ hb2)
      · exact Or.inl (List.mem_append_right _ (hsub w hf))
    · exact Or.inl ⟨w0, hmem, hh, rfl, rfl⟩

theorem markDead_workers (st : DispatchState) (i : Nat) :
    (markDead st i).nextIndex = st.nextIndex ∧
    ∀ w ∈ (markDead st i).busy ++ (markDead st i).free,
      ∃ w2, w2 ∈ st.busy ++ st.free ∧ w.index = w2.index ∧ w.hash = w2.hash := by
  refine ⟨rfl, ?_⟩
  intro w hw
  rcases List.mem_append.mp hw with hb | hf
  · simp only [markDead] at hb
    obtain ⟨w2, hw2, heq⟩ := List.mem_map.mp hb
    by_cases hidx : w2.index == i
    · rw [if_pos hidx] at heq
      exact ⟨w2, List.mem_append_left _ hw2, by rw [← heq], by rw [← heq]⟩
    · rw [if_neg hidx] at heq
      exact ⟨w2, List.mem_append_left _ hw2, by rw [← heq], by rw [← heq]⟩
  · exact ⟨w, List.mem_append_right _ hf, rfl, rfl⟩

theorem completeWorker_workers (st : DispatchState) (c : Nat) :
    (completeWorker st c).nextIndex = st.nextIndex ∧
    ∀ w ∈ (completeWorker st c).busy ++ (completeWorker st c).free,
      w ∈ st.busy ++ st.free := by
  refine ⟨rfl, ?_⟩
  intro w hw
  rcases List.mem_append.mp hw with hb | hf
  · simp only [completeWorker] at hb
    exact List.mem_append_left _ (List.mem_of_mem_filter hb)
  · simp only [completeWorker] at hf
    rcases List.mem_append.mp hf with h1 | h2
    · exact List.mem_append_right _ h1
    · exact List.mem_append_left _ (List.mem_of_mem_filter h2)

theorem dispatchLoop_out_uniform (W : Nat) :
    ∀ (fuel : Nat) (st : DispatchState) (queue : List (List TestSpec))
      (comps : List Nat),
      (∀ j ∈ queue, ∀ t ∈ j, t.hash = jobHash j) →
      ∀ r ∈ dispatchLoop W fuel st queue comps, ∀ t ∈ r.1,
        t.hash = jobHash r.1 := by
  intro fuel
  induction fuel with
  | zero =>
      intro st queue comps huni r hr
      rw [dispatchLoop] at hr
      simp at hr
  | succ fuel ih =>
      intro st queue comps huni r hr
      cases queue with
      | nil =>
          rw [dispatchLoop] at hr
          simp at hr
      | cons j rest =>
          rw [dispatchLoop_succ_cons] at hr
          rcases hta : tryAssign W st (jobHash j) with _ | ⟨st2, idx⟩
          · rw [hta] at hr
            cases comps with
            | nil => simp at hr
            | cons cmp crest =>
                exact ih (completeWorker st cmp) (j :: rest) crest huni r hr
          · rw [hta] at hr
            rcases hsr : splitRun j with ⟨sr1, sr2⟩
            have hc : sr1 ++ sr2 = j := by
              have h1 := splitRun_fst_append_snd j
              rw [hsr] at h1
              exact h1
            have hsr1sub : ∀ t ∈ sr1, t ∈ j := by
              intro t ht
              rw [← hc]
              exact List.mem_append_left _ ht
            have hsr1uni : ∀ t ∈ sr1, t.hash = jobHash sr1 := by
              intro t ht
              have h2 : t.hash = jobHash j :=
                huni j (List.mem_cons_self _ _) t (hsr1sub t ht)
              rw [h2, ← jobHash_splitRun_fst j, hsr]
            cases sr2 with
            | nil =>
                rw [hsr] at hr
                simp only [List.isEmpty_nil, if_true] at hr
                rcases List.mem_cons.mp hr with rfl | hr2
                · exact hsr1uni
                · exact ih st2 rest comps
                    (fun j2 hj2 => huni j2 (List.mem_cons_of_mem _ hj2)) r hr2
            | cons d2 sr2' =>
                rw [hsr] at hr
                simp only [List.isEmpty_cons, if_false, Bool.false_eq_true] at hr
                rcases List.mem_cons.mp hr with rfl | hr2
                · exact hsr1uni
                · have hsub2 : ∀ t ∈ d2 :: sr2', t ∈ j := by
                    intro t ht
                    rw [← hc]
                    exact List.mem_append_right _ ht
                  have huni2 : ∀ j2 ∈ (d2 :: sr2') :: rest, ∀ t ∈ j2,
                      t.hash = jobHash j2 := by
                    intro j2 hj2 t ht
                    rcases List.mem_cons.mp hj2 with rfl | hj3
                    · have h3 : t.hash = jobHash j :=
                        huni j (List.mem_cons_self _ _) t (hsub2 t ht)
                      have h4 : jobHash (d2 :: sr2') = jobHash j := by
                        have h5 : d2.hash = jobHash j :=
                          huni j (List.mem_cons_self _ _) d2
                            (hsub2 d2 (List.mem_cons_self _ _))
                        rw [jobHash, h5]
                      rw [h3, h4]
                    · exact huni j2 (List.mem_cons_of_mem _ hj3) t ht
                  exact ih (markDead st2 idx) ((d2 :: sr2') :: rest) comps
                    huni2 r hr2

theorem dispatchLoop_hash_compat (W : Nat) :
    ∀ (fuel : Nat) (st : DispatchState) (queue : List (List TestSpec))
      (comps : List Nat) (used : List (Nat × Nat)),
      (∀ w ∈ st.busy ++ st.free, w.index < st.nextIndex) →
      (∀ w ∈ st.busy ++ st.free, ∀ w2 ∈ st.busy ++ st.free,
        w.index = w2.index → w.hash = w2.hash) →
      (∀ p ∈ used, p.1 < st.nextIndex) →
      (∀ p ∈ used, ∀ w ∈ st.busy ++ st.free, w.index = p.1 → w.hash = p.2) →
      (∀ p ∈ used, ∀ q ∈ used, p.1 = q.1 → p.2 = q.2) →
      ∀ p ∈ used ++ (dispatchLoop W fuel st queue comps).map
          (fun r => (r.2, jobHash r.1)),
        ∀ q ∈ used ++ (dispatchLoop W fuel st queue comps).map
          (fun r => (r.2, jobHash r.1)),
        p.1 = q.1 → p.2 = q.2 := by
  intro fuel
  induction fuel with
  | zero =>
      intro st queue comps used inv1 inv1c inv2 inv3 inv5 p hp q hq hpq
      have h0 : dispatchLoop W 0 st queue comps = [] := rfl
      rw [h0] at hp hq
      simp only [List.map_nil, List.append_nil] at hp hq
      exact inv5 p hp q hq hpq
  | succ fuel ih =>
      intro st queue comps used inv1 inv1c inv2 inv3 inv5 p hp q hq hpq
      cases queue with
      | nil =>
          have h0 : dispatchLoop W (fuel + 1) st [] comps = [] := rfl
          rw [h0] at hp hq
          simp only [List.map_nil, List.append_nil] at hp hq
          exact inv5 p hp q hq hpq
      | cons j rest =>
          rcases hta : tryAssign W st (jobHash j) with _ | ⟨st2, idx⟩
          · cases comps with
            | nil =>
                have h0 : dispatchLoop W (fuel + 1) st (j :: rest) [] = [] := by
                  rw [dispatchLoop_succ_cons]
                  simp only [hta]
                rw [h0] at hp hq
                simp only [List.map_nil, List.append_nil] at hp hq
                exact inv5 p hp q hq hpq
            | cons cmp crest =>
                have hout : dispatchLoop W (fuel + 1) st (j :: rest) (cmp :: crest)
                    = dispatchLoop W fuel (completeWorker st cmp)
                        (j :: rest) crest := by
                  rw [dispatchLoop_succ_cons]
                  simp only [hta]
                rw [hout] at hp hq
                obtain ⟨hnxt, hsub⟩ := completeWorker_workers st cmp
                refine ih (completeWorker st cmp) (j :: rest) crest used
                  ?_ ?_ ?_ ?_ inv5 p hp q hq hpq
                · intro w hw
                  rw [hnxt]
                  exact inv1 w (hsub w hw)
                · intro w hw w2 hw2
                  exact inv1c w (hsub w hw) w2 (hsub w2 hw2)
                · intro p2 hp2
                  rw [hnxt]
                  exact inv2 p2 hp2
                · intro p2 hp2 w hw
                  exact inv3 p2 hp2 w (hsub w hw)
          · obtain ⟨hA, hE⟩ := tryAssign_cases W st (jobHash j) st2 idx hta
            have hnle : st.nextIndex ≤ st2.nextIndex := by
              rcases hE with ⟨w0, -, -, -, he⟩ | ⟨-, he⟩ <;> omega
            have inv1A : ∀ w ∈ st2.busy ++ st2.free, w.index < st2.nextIndex := by
              intro w hw
              rcases hA w hw with hold | ⟨rfl, hni⟩
              · have := inv1 w hold
                omega
              · simp only [hni]
                omega
            have inv1cA : ∀ w ∈ st2.busy ++ st2.free,
                ∀ w2 ∈ st2.busy ++ st2.free,
                w.index = w2.index → w.hash = w2.hash := by
              intro w hw w2 hw2 heq
              rcases hA w hw with hold | ⟨rfl, hni⟩
              · rcases hA w2 hw2 with hold2 | ⟨rfl, hni2⟩
                · exact inv1c w hold w2 hold2 heq
                · exfalso
                  have := inv1 w hold
                  simp only [] at heq
                  omega
              · rcases hA w2 hw2 with hold2 | ⟨rfl, hni2⟩
                · exfalso
                  have := inv1 w2 hold2
                  simp only [] at heq
                  omega
                · rfl
            have invN : ∀ w ∈ st2.busy ++ st2.free, w.index = idx →
                w.hash = jobHash j := by
              intro w hw heq
              rcases hE with ⟨w0, hw0f, hw0h, hidx, hni⟩ | ⟨hidx, hni⟩
              · rcases hA w hw with hold | ⟨rfl, hni2⟩
                · have hw0mem : w0 ∈ st.busy ++ st.free :=
                    List.mem_append_right _ hw0f
                  have h3 := inv1c w hold w0 hw0mem (by rw [heq, hidx])
                  rw [h3, hw0h]
                · exfalso
                  omega
              · rcases hA w hw with hold | ⟨rfl, hni2⟩
                · exfalso
                  have := inv1 w hold
                  simp only [] at heq
                  omega
                · rfl
            have hidxlt : idx < st2.nextIndex := by
              rcases hE with ⟨w0, hw0f, -, hidx, hni⟩ | ⟨hidx, hni⟩
              · have := inv1 w0 (List.mem_append_right _ hw0f)
                omega
              · omega
            have inv2A : ∀ p2 ∈ used ++ [(idx, jobHash j)],
                p2.1 < st2.nextIndex := by
              intro p2 hp2
              rcases List.mem_append.mp hp2 with ho | hn
              · have := inv2 p2 ho
                omega
              · rw [List.mem_singleton.mp hn]
                exact hidxlt
            have inv3A : ∀ p2 ∈ used ++ [(idx, jobHash j)],
                ∀ w ∈ st2.busy ++ st2.free, w.index = p2.1 → w.hash = p2.2 := by
              intro p2 hp2 w hw heq
              rcases List.mem_append.mp hp2 with ho | hn
              · rcases hA w hw with hold | ⟨rfl, hni⟩
                · exact inv3 p2 ho w hold heq
                · exfalso
                  have := inv2 p2 ho
                  simp only [] at heq
                  omega
              · rw [List.mem_singleton.mp hn] at heq ⊢
                exact invN w hw heq
            have inv5A : ∀ p2 ∈ used ++ [(idx, jobHash j)],
                ∀ q2 ∈ used ++ [(idx, jobHash j)],
                p2.1 = q2.1 → p2.2 = q2.2 := by
              intro p2 hp2 q2 hq2 heq
              rcases List.mem_append.mp hp2 with ho | hn
              · rcases List.mem_append.mp hq2 with ho2 | hn2
                · exact inv5 p2 ho q2 ho2 heq
                · rw [List.mem_singleton.mp hn2] at heq ⊢
                  rcases hE with ⟨w0, hw0f, hw0h, hidx, hni⟩ | ⟨hidx, hni⟩
                  · have hw0mem : w0 ∈ st.busy ++ st.free :=
                      List.mem_append_right _ hw0f
                    have h3 := inv3 p2 ho w0 hw0mem (by rw [heq]; exact hidx.symm)
                    rw [← h3, hw0h]
                  · exfalso
                    have := inv2 p2 ho
                    simp only [] at heq
                    omega
              · rcases List.mem_append.mp hq2 with ho2 | hn2
                · rw [List.mem_singleton.mp hn] at heq ⊢
                  rcases hE with ⟨w0, hw0f, hw0h, hidx, hni⟩ | ⟨hidx, hni⟩
                  · have hw0mem : w0 ∈ st.busy ++ st.free :=
                      List.mem_append_right _ hw0f
                    have h3 := inv3 q2 ho2 w0 hw0mem
                      (by rw [← heq]; exact hidx.symm)
                    rw [← h3, hw0h]
                  · exfalso
                    have := inv2 q2 ho2
                    simp only [] at heq
                    omega
                · rw [List.mem_singleton.mp hn, List.mem_singleton.mp hn2]
            rcases hsr : splitRun j with ⟨sr1, sr2⟩
            have hj1 : jobHash sr1 = jobHash j := by
              rw [← jobHash_splitRun_fst j, hsr]
            cases sr2 with
            | nil =>
                have hout : dispatchLoop W (fuel + 1) st (j :: rest) comps
                    = (sr1, idx) :: dispatchLoop W fuel st2 rest comps := by
                  rw [dispatchLoop_succ_cons]
                  simp only [hta]
                  rw [hsr]
                  simp
                rw [hout] at hp hq
                simp only [List.map_cons, hj1] at hp hq
                have hmem : ∀ x : Nat × Nat,
                    x ∈ used ++ ((idx, jobHash j)
                      :: (dispatchLoop W fuel st2 rest comps).map
                          (fun r => (r.2, jobHash r.1))) →
                    x ∈ (used ++ [(idx, jobHash j)])
                      ++ (dispatchLoop W fuel st2 rest comps).map
                          (fun r => (r.2, jobHash r.1)) := by
                  intro x hx
                  simp only [List.mem_append, List.mem_cons,
                    List.mem_singleton] at hx ⊢
                  tauto
                exact ih st2 rest comps (used ++ [(idx, jobHash j)])
                  inv1A inv1cA inv2A inv3A inv5A p (hmem p hp) q (hmem q hq) hpq
            | cons d2 sr2' =>
                have hout : dispatchLoop W (fuel + 1) st (j :: rest) comps
                    = (sr1, idx) :: dispatchLoop W fuel (markDead st2 idx)
                        ((d2 :: sr2') :: rest) comps := by
                  rw [dispatchLoop_succ_cons]
                  simp only [hta]
                  rw [hsr]
                  simp
                rw [hout] at hp hq
                simp only [List.map_cons, hj1] at hp hq
                obtain ⟨hmnxt, hmw⟩ := markDead_workers st2 idx
                have inv1B : ∀ w ∈ (markDead st2 idx).busy
                    ++ (markDead st2 idx).free,
                    w.index < (markDead st2 idx).nextIndex := by
                  intro w hw
                  obtain ⟨w2, hw2, hi, hh⟩ := hmw w hw
                  rw [hi, hmnxt]
                  exact inv1A w2 hw2
                have inv1cB : ∀ w ∈ (markDead st2 idx).busy
                    ++ (markDead st2 idx).free,
                    ∀ w2 ∈ (markDead st2 idx).busy ++ (markDead st2 idx).free,
                    w.index = w2.index → w.hash = w2.hash := by
                  intro w hw w2 hw2 heq
                  obtain ⟨w3, hw3, hi3, hh3⟩ := hmw w hw
                  obtain ⟨w4, hw4, hi4, hh4⟩ := hmw w2 hw2
                  rw [hh3, hh4]
                  exact inv1cA w3 hw3 w4 hw4 (by rw [← hi3, ← hi4, heq])
                have inv2B : ∀ p2 ∈ used ++ [(idx, jobHash j)],
                    p2.1 < (markDead st2 idx).nextIndex := by
                  intro p2 hp2
                  rw [hmnxt]
                  exact inv2A p2 hp2
                have inv3B : ∀ p2 ∈ used ++ [(idx, jobHash j)],
                    ∀ w ∈ (markDead st2 idx).busy ++ (markDead st2 idx).free,
                    w.index = p2.1 → w.hash = p2.2 := by
                  intro p2 hp2 w hw heq
                  obtain ⟨w2, hw2, hi, hh⟩ := hmw w hw
                  rw [hh]
                  exact inv3A p2 hp2 w2 hw2 (by rw [← hi, heq])
                have hmem : ∀ x : Nat × Nat,
                    x ∈ used ++ ((idx, jobHash j)
                      :: (dispatchLoop W fuel (markDead st2 idx)
                          ((d2 :: sr2') :: rest) comps).map
                          (fun r => (r.2, jobHash r.1))) →
                    x ∈ (used ++ [(idx, jobHash j)])
                      ++ (dispatchLoop W fuel (markDead st2 idx)
                          ((d2 :: sr2') :: rest) comps).map
                          (fun r => (r.2, jobHash r.1)) := by
                  intro x hx
                  simp only [List.mem_append, List.mem_cons,
                    List.mem_singleton] at hx ⊢
                  tauto
                exact ih (markDead st2 idx) ((d2 :: sr2') :: rest) comps
                  (used ++ [(idx, jobHash j)])
                  inv1B inv1cB inv2B inv3B inv5A p (hmem p hp) q (hmem q hq) hpq

theorem runTests_def (W : Nat) (ts : List TestSpec) (comps : List Nat) :
    runTests W ts comps
      = flattenAssignments
          (dispatchLoop W (2 * ts.length + comps.length + 1) initialState
            (chunkTests ts) comps) := rfl

theorem initialState_no_workers :
    ∀ w ∈ initialState.busy ++ initialState.free, False := by
  intro w hw
  simp [initialState] at hw

/-! ### Dispatcher: the claims -/

/-- Claim C3 counterexample: the "if" direction of the claimed
equivalence fails — in the repository's own parallelism test, the two
tests have equal FixtureHashes (both use the default worker fixtures)
yet run in two distinct workers, so matching hashes do not force a
shared worker. -/
theorem worker_sharing_iff_cex :
    ¬ (∀ (W : Nat) (ts : List TestSpec) (comps : List Nat),
        ∀ p ∈ runTests W ts comps, ∀ q ∈ runTests W ts comps,
          p.1.hash = q.1.hash → p.2 = q.2) := by
  intro h
  have h1 : ((⟨"1.spec.ts", 0, true⟩ : TestSpec), 0)
      ∈ runTests 2 parallelTests [] := by decide
  have h2 : ((⟨"2.spec.ts", 0, true⟩ : TestSpec), 1)
      ∈ runTests 2 parallelTests [] := by decide
  have h3 := h 2 parallelTests [] _ h1 _ h2 rfl
  simp at h3

/-- Claim C3 (amended): the "only if" direction holds — every pair of
tests dispatched to the same `workerIndex` has equal FixtureHashes (a
worker is bound to a single hash for its whole lifetime) — and the
three-project scenario holds: three tests with distinct FixtureHashes
run under the distinct workerIndex values 0, 1 and 2 (the third after a
completion frees a mismatched worker that is then terminated), all
three pass and the run exits 0.  The converse direction of the original
claim is false, see the counterexample. -/
theorem worker_hash_consistency :
    (∀ (W : Nat) (ts : List TestSpec) (comps : List Nat),
      ∀ p ∈ runTests W ts comps, ∀ q ∈ runTests W ts comps,
        p.2 = q.2 → p.1.hash = q.1.hash) ∧
    runSummary 2 projectTests [0]
      = { passed := 3, failed := 0, exitCode := 0,
          workerIndices := [0, 1, 2] } := by
  constructor
  · intro W ts comps p hp q hq hpq
    obtain ⟨t1, i1⟩ := p
    obtain ⟨t2, i2⟩ := q
    rw [runTests_def] at hp hq
    obtain ⟨j1, hj1, ht1⟩ := flattenAssignments_mem _ _ _ hp
    obtain ⟨j2, hj2, ht2⟩ := flattenAssignments_mem _ _ _ hq
    have huni : ∀ j ∈ chunkTests ts, ∀ t ∈ j, t.hash = jobHash j :=
      fun j hj t ht => (chunkTests_uniform ts j hj t ht).2
    have hu1 : t1.hash = jobHash j1 :=
      dispatchLoop_out_uniform W _ initialState (chunkTests ts) comps huni
        (j1, i1) hj1 t1 ht1
    have hu2 : t2.hash = jobHash j2 :=
      dispatchLoop_out_uniform W _ initialState (chunkTests ts) comps huni
        (j2, i2) hj2 t2 ht2
    have hcompat := dispatchLoop_hash_compat W
      (2 * ts.length + comps.length + 1) initialState (chunkTests ts) comps []
      (fun w hw => absurd (initialState_no_workers w hw) not_false)
      (fun w hw => absurd (initialState_no_workers w hw) not_false)
      (fun p2 hp2 => absurd hp2 (List.not_mem_nil _))
      (fun p2 hp2 => absurd hp2 (List.not_mem_nil _))
      (fun p2 hp2 => absurd hp2 (List.not_mem_nil _))
    have hm1 : ((i1, jobHash j1) : Nat × Nat)
        ∈ ([] : List (Nat × Nat)) ++ (dispatchLoop W
            (2 * ts.length + comps.length + 1) initialState
            (chunkTests ts) comps).map (fun r => (r.2, jobHash r.1)) :=
      List.mem_append_right _ (List.mem_map_of_mem _ hj1)
    have hm2 : ((i2, jobHash j2) : Nat × Nat)
        ∈ ([] : List (Nat × Nat)) ++ (dispatchLoop W
            (2 * ts.length + comps.length + 1) initialState
            (chunkTests ts) comps).map (fun r => (r.2, jobHash r.1)) :=
      List.mem_append_right _ (List.mem_map_of_mem _ hj2)
    have hjh := hcompat _ hm1 _ hm2 hpq
    simp only [] at hjh
    rw [hu1, hu2, hjh]
  · decide

/-- Witness for C3: applying the general direction to the one-file
three-test run, where the first and third results share worker 0. -/
theorem worker_hash_consistency_witness :
    ((⟨"a.test.js", 0, true⟩ : TestSpec), 0).1.hash
      = ((⟨"a.test.js", 0, true⟩ : TestSpec), 0).1.hash :=
  worker_hash_consistency.1 2 reuseTests []
    (⟨"a.test.js", 0, true⟩, 0) (by decide)
    (⟨"a.test.js", 0, true⟩, 0) (by decide) rfl

/-- Claim C4 counterexample: two tests in declaration order with equal
fixtureHashes and no failing test between them need not share a worker:
in the repository's parallelism scenario (two files, same default hash,
two workers) the first test runs in worker 0 and the second in
worker 1. -/
theorem declaration_order_same_worker_cex :
    ¬ (∀ (W : Nat) (ts : List TestSpec) (comps : List Nat)
        (i j : Nat) (hi : i < (runTests W ts comps).length)
        (hj : j < (runTests W ts comps).length),
        i < j →
        (∀ u ∈ ts, u.passes = true) →
        ((runTests W ts comps).get ⟨i, hi⟩).1.hash
            = ((runTests W ts comps).get ⟨j, hj⟩).1.hash →
        ((runTests W ts comps).get ⟨i, hi⟩).2
            = ((runTests W ts comps).get ⟨j, hj⟩).2) := by
  intro h
  have h3 := h 2 parallelTests [] 0 1 (by decide) (by decide)
    (by decide) (by decide) (by decide)
  simp at h3
  exact absurd h3 (by decide)

/-- Claim C4 (amended): for tests T1 preceding T2 in declaration order
in the same file with the same fixtureHash, such that every test from
T1 through T2 shares that file and hash and all of them pass, the same
worker runs both — formally, any uniform all-passing segment of the
declaration order is assigned a single workerIndex `n` in a complete
run.  The scenario holds: one file with three passing tests under the
default config runs all three with workerIndex 0, 3 passed, exit 0.
The original claim without the same-file restriction is false, see the
counterexample. -/
theorem same_file_hash_same_worker :
    (∀ (W : Nat) (comps : List Nat) (pre seg post : List TestSpec),
      seg ≠ [] →
      (∀ u ∈ seg, ∀ v ∈ seg, u.file = v.file ∧ u.hash = v.hash) →
      (∀ u ∈ seg, u.passes = true) →
      (runTests W (pre ++ seg ++ post) comps).map Prod.fst
          = pre ++ seg ++ post →
      ∃ n resPre resPost,
        runTests W (pre ++ seg ++ post) comps
          = resPre ++ seg.map (fun t => (t, n)) ++ resPost ∧
        resPre.map Prod.fst = pre ∧ resPost.map Prod.fst = post) ∧
    runSummary 2 reuseTests []
      = { passed := 3, failed := 0, exitCode := 0,
          workerIndices := [0, 0, 0] } := by
  constructor
  · intro W comps pre seg post hne huni hseg hcomplete
    obtain ⟨cL, a, b, cR, hch, hpre, hpost⟩ :=
      chunkTests_seg_decomp pre seg post hne huni
    rw [runTests_def] at hcomplete ⊢
    rw [hch] at hcomplete ⊢
    have hcomp2 : (flattenAssignments
        (dispatchLoop W (2 * (pre ++ seg ++ post).length + comps.length + 1)
          initialState (cL ++ (a ++ seg ++ b) :: cR) comps)).map Prod.fst
        = (cL ++ (a ++ seg ++ b) :: cR).flatten := by
      rw [hcomplete, ← hch, chunkTests_flatten]
    obtain ⟨n, FL, FR, hdec, hfl, hfr⟩ :=
      dispatchLoop_seg W seg b cR hne hseg
        (2 * (pre ++ seg ++ post).length + comps.length + 1)
        initialState cL a comps hcomp2
    refine ⟨n, FL, FR, hdec, ?_, ?_⟩
    · rw [hfl, hpre]
    · rw [hfr, hpost]
  · decide

/-- Witness for C4: the whole three-test file is one uniform passing
segment, so the theorem yields a single worker for all of it. -/
theorem same_file_hash_same_worker_witness :
    ∃ n resPre resPost,
      runTests 2 ([] ++ reuseTests ++ []) []
        = resPre ++ reuseTests.map (fun t => (t, n)) ++ resPost ∧
      resPre.map Prod.fst = [] ∧ resPost.map Prod.fst = [] :=
  same_file_hash_same_worker.1 2 [] [] reuseTests []
    (by decide) (by decide) (by decide) (by decide)

/-- Claim C7: with two spec files of one passing test each and two
workers, both jobs are dispatched before any worker completes (the
empty completion list witnesses that neither assignment waits on the
other, i.e. the tests are in flight concurrently), in the two distinct
workers 0 and 1; both tests pass and the run exits 0. -/
theorem parallel_two_workers :
    runSummary 2 parallelTests []
      = { passed := 2, failed := 0, exitCode := 0, workerIndices := [0, 1] } ∧
    (runTests 2 parallelTests []).map (fun p => p.2) = [0, 1] := by
  decide

end Folio
